import Mathlib

/-!
Verification of the Brainfuck interpreter / JIT compiler in
`src/interpreter.cc` (Becavalier/brainfuck-jit-compiler).

The file shallowly embeds the two execution engines of the source file:

* `bfStep` / `bfRun` embed `bfInterpret` (src/interpreter.cc:247-307): a
  switch-threaded loop over a NUL-terminated program with run-length
  coalescing of `+ - < > ' '`, a bounded stack of loop re-entry points
  (`loops`, MAX_NESTING = 100) and a suppression counter `nskip`.
  The C tape `unsigned char tape[30000]` with a raw cursor pointer is
  modelled as a total function `Int → Nat` (cell values kept `% 256` by the
  update operations) together with an integer cursor; the source performs no
  bounds check (out-of-range movement is undefined behaviour by contract),
  and the claims below only exercise in-range runs.

* `cgStep` / `cgLoop` / `bfJITCompile` embed `bfJITCompile`
  (src/interpreter.cc:76-245): token-at-a-time code generation into a byte
  buffer with run-length coalescing, a relocation stack `jmpLocIndex`, the
  single-pass backpatching performed at each `]`, and the trailing-`]`
  compare-elision jump.  Bytes are `Nat` values `< 256`; reading
  `jmpLocIndex.back()` on an empty relocation stack is undefined behaviour
  in the source and is modelled as `none`.

* `x86Exec` gives an operational semantics to exactly the instruction
  encodings the generator emits (`movabs rbx`, `add/sub byte [rbx]`,
  `add/sub rbx, imm8` with sign-extended immediate, the macOS
  `read`/`write` syscall blocks, `cmp byte [rbx],0` with `je`/`jne rel32`,
  `jmp rel8`, and the `pop rax; jmp rax` epilogue), so that generated code
  can be executed against the same observable state (memory, input stream,
  output stream).

* `mmapRequestLen` / `mmapMappedBytes` embed the size computation of
  `setupExecutableMem` (src/interpreter.cc:41-65).
-/

/-! ## Run-length scanning

`for (n = ...; *p == c; ++n, ++p);` — the length of the maximal run of the
character `c` at the head of the remaining program. -/

/-- Length of the maximal run of `c` at the front of `l`. -/
def countRun (c : Char) : List Char → Nat
  | [] => 0
  | x :: xs => if x = c then countRun c xs + 1 else 0

/-! ## The interpreter: `bfInterpret` (src/interpreter.cc:247-307) -/

/-- The abstract machine state `bfState` together with the two host I/O
streams.  `tape` models `unsigned char tape[TAPE_SIZE]` addressed by the
cursor `cur` (the source's `state->ptr`, kept as an offset from the tape
base); cells hold values `< 256`. -/
structure BfState where
  tape : Int → Nat
  cur : Int
  input : List Nat
  output : List Nat

/-- Zero-initialised machine (`bfState()` constructor) with empty stdin. -/
def initState : BfState :=
  { tape := fun _ => 0, cur := 0, input := [], output := [] }

/-- `std::getchar()`: the next stdin byte, or `-1` (EOF) when the stream is
exhausted. -/
def getcharInt : List Nat → Int × List Nat
  | [] => (-1, [])
  | b :: r => ((b : Int), r)

/-- `static_cast<unsigned char>` applied to an `int`. -/
def ucCast (x : Int) : Nat := (x.emod 256).toNat

/-- `*state->ptr = v` — write a byte at the cursor. -/
def writeCell (s : BfState) (v : Nat) : BfState :=
  { s with tape := Function.update s.tape s.cur v }

/-- Outcome of one iteration of the interpreter's `while (true)` loop. -/
inductive StepRes where
  | cont (prog : List Char) (loops : List (List Char)) (nskip : Nat) (s : BfState)
  | halt (s : BfState)
  | fatal

/-- One iteration of the interpreter's dispatch loop
(`switch (*program++) { ... }`, src/interpreter.cc:253-305).  The list end
plays the role of the string's terminating NUL; `.fatal` is
`std::terminate()`. -/
def bfStep : List Char → List (List Char) → Nat → BfState → StepRes
  | [], _, _, s => .halt s
  | c :: rest, loops, nskip, s =>
    if c = '<' then
      let n := 1 + countRun '<' rest
      .cont (rest.drop (n - 1)) loops nskip
        (if nskip = 0 then { s with cur := s.cur - (n : Int) } else s)
    else if c = '>' then
      let n := 1 + countRun '>' rest
      .cont (rest.drop (n - 1)) loops nskip
        (if nskip = 0 then { s with cur := s.cur + (n : Int) } else s)
    else if c = '+' then
      let n := 1 + countRun '+' rest
      .cont (rest.drop (n - 1)) loops nskip
        (if nskip = 0 then writeCell s ((s.tape s.cur + n) % 256) else s)
    else if c = '-' then
      let n := 1 + countRun '-' rest
      .cont (rest.drop (n - 1)) loops nskip
        (if nskip = 0 then writeCell s (ucCast ((s.tape s.cur : Int) - (n : Int))) else s)
    else if c = ',' then
      if nskip = 0 then
        .cont rest loops nskip
          (writeCell { s with input := (getcharInt s.input).2 } (ucCast (getcharInt s.input).1))
      else .cont rest loops nskip s
    else if c = '.' then
      if nskip = 0 then
        .cont rest loops nskip { s with output := s.output ++ [s.tape s.cur] }
      else .cont rest loops nskip s
    else if c = '[' then
      if loops.length = 100 then .fatal
      else .cont rest (rest :: loops) (if s.tape s.cur = 0 then nskip + 1 else nskip) s
    else if c = ']' then
      match loops with
      | [] => .fatal
      | top :: ltl =>
        .cont (if s.tape s.cur = 0 then rest else top)
              (if s.tape s.cur = 0 then ltl else top :: ltl)
              (nskip - 1) s
    else if c = ' ' then
      .cont (rest.drop (countRun ' ' rest)) loops nskip s
    else if c = '\x00' then
      .halt s
    else
      .cont rest loops nskip s

/-- Result of a bounded interpreter run. -/
inductive BfOut where
  | done (s : BfState)
  | fatal
  | timeout

/-- Fuelled iteration of `bfStep`: the interpreter's main loop. -/
def bfRun : Nat → List Char → List (List Char) → Nat → BfState → BfOut
  | 0, _, _, _, _ => .timeout
  | fuel + 1, prog, loops, nskip, s =>
    match bfStep prog loops nskip s with
    | .cont p l k s' => bfRun fuel p l k s'
    | .halt s' => .done s'
    | .fatal => .fatal

/-- Cell 0 of the final tape of a completed run. -/
def tapeAt0 : BfOut → Option Nat
  | .done s => some (s.tape 0)
  | _ => none

/-- Did the run end in `std::terminate()`? -/
def outFatal : BfOut → Bool
  | .fatal => true
  | _ => false

/-! ## The JIT code generator: `bfJITCompile` (src/interpreter.cc:76-245)

Machine-code bytes are `Nat` values `< 256`.  `_resolveAddrDiff` and
`_resolvePtrAddr` are little-endian serialisations of a 32-bit / 64-bit
value. -/

/-- `_resolveAddrDiff`: 4 little-endian bytes of a 32-bit value. -/
def le32 (x : Nat) : List Nat :=
  [x % 256, x / 256 % 256, x / 65536 % 256, x / 16777216 % 256]

/-- `_resolvePtrAddr`: 8 little-endian bytes of a 64-bit value. -/
def le64 (x : Nat) : List Nat :=
  [x % 256, x / 256 % 256, x / 65536 % 256, x / 16777216 % 256,
   x / 4294967296 % 256, x / 1099511627776 % 256,
   x / 281474976710656 % 256, x / 72057594037927936 % 256]

/-- `movabs rbx, base` — the prologue loading the tape base address
(`0x48 0xbb` followed by the 8 base-address bytes). -/
def jitPrologue (base : Nat) : List Nat := [0x48, 0xbb] ++ le64 base

/-- `pop rax; jmp rax` — the epilogue returning to the host. -/
def jitEpilogue : List Nat := [0x58, 0xff, 0xe0]

/-- `[`: `cmp byte [rbx], 0` followed by `je` with a 4-byte placeholder. -/
def openBlock : List Nat := [0x80, 0x3b, 0x00, 0x0f, 0x84, 0, 0, 0, 0]

/-- `]`: `cmp byte [rbx], 0` followed by `jne` with a 4-byte placeholder. -/
def closeBlock : List Nat := [0x80, 0x3b, 0x00, 0x0f, 0x85, 0, 0, 0, 0]

/-- `,`: `mov eax, 0x2000003; mov edi, 0; mov rsi, rbx; mov edx, 1; syscall`. -/
def readBlock : List Nat :=
  [0xb8, 0x3, 0x0, 0x0, 0x2, 0xbf, 0x0, 0x0, 0x0, 0x0,
   0x48, 0x89, 0xde, 0xba, 0x1, 0x0, 0x0, 0x0, 0xf, 0x5]

/-- `.`: `mov eax, 0x2000004; mov edi, 1; mov rsi, rbx; mov edx, 1; syscall`. -/
def writeBlock : List Nat :=
  [0xb8, 0x4, 0x0, 0x0, 0x2, 0xbf, 0x1, 0x0, 0x0, 0x0,
   0x48, 0x89, 0xde, 0xba, 0x1, 0x0, 0x0, 0x0, 0xf, 0x5]

/-- The buffer transformation of the `]` case (src/interpreter.cc:201-218):
append the compare-and-`jne` block, then replace its own 4 placeholder bytes
by the backward displacement `jmpLocIndex.back() - machineCode.size()` and
the matching `[`'s 4 placeholder bytes (at `p - 4 .. p`) by the forward
displacement `machineCode.size() - jmpLocIndex.back()`, both cast to
`uint32_t`. -/
def cgClosePatch (code : List Nat) (p : Nat) : List Nat :=
  let code1 := code ++ closeBlock
  let q9 := code1.length
  let code2 := code1.take (q9 - 4) ++
    le32 ((((p : Int) - (q9 : Int)).emod 4294967296).toNat)
  code2.take (p - 4) ++
    le32 ((((q9 : Int) - (p : Int)).emod 4294967296).toNat) ++ code2.drop p

/-- One iteration of the code-generation loop (`switch (*tok)`,
src/interpreter.cc:118-231): given the current token, the rest of the
program, the byte buffer `machineCode` and the relocation stack
`jmpLocIndex`, produce the remaining program, the new buffer and the new
stack.  `none` models the undefined behaviour of `jmpLocIndex.back()` on an
empty vector at an unmatched `]` (src/interpreter.cc:208).  Run lengths are
truncated to one byte by `static_cast<uint8_t>(n)`, exactly as in the
source. -/
def cgStep (c : Char) (rest : List Char) (code stk : List Nat) :
    Option (List Char × List Nat × List Nat) :=
  if c = '+' then
    some (rest.drop (countRun '+' rest),
          code ++ [0x80, 0x03, (1 + countRun '+' rest) % 256], stk)
  else if c = '-' then
    some (rest.drop (countRun '-' rest),
          code ++ [0x80, 0x2b, (1 + countRun '-' rest) % 256], stk)
  else if c = '>' then
    some (rest.drop (countRun '>' rest),
          code ++ [0x48, 0x83, 0xc3, (1 + countRun '>' rest) % 256], stk)
  else if c = '<' then
    some (rest.drop (countRun '<' rest),
          code ++ [0x48, 0x83, 0xeb, (1 + countRun '<' rest) % 256], stk)
  else if c = ',' then some (rest, code ++ readBlock, stk)
  else if c = '.' then some (rest, code ++ writeBlock, stk)
  else if c = '[' then some (rest, code ++ openBlock, (code.length + 9) :: stk)
  else if c = ']' then
    match stk with
    | [] => none
    | p :: stk' =>
      some (rest,
        (if 0 < countRun ']' rest
         then cgClosePatch code p ++ [0xeb, (countRun ']' rest * 11 - 2) % 256]
         else cgClosePatch code p), stk')
  else some (rest, code, stk)

/-- The code-generation loop, with explicit fuel to keep the recursion
structural (every iteration of the source loop consumes at least one token,
so fuel `P.length` is always enough; the fuel-exhaustion branch is
unreachable from `cgLoop`). -/
def cgLoopF : Nat → List Char → List Nat → List Nat → Option (List Nat × List Nat)
  | _, [], code, stk => some (code, stk)
  | 0, _ :: _, _, _ => none
  | fuel + 1, c :: rest, code, stk =>
    match cgStep c rest code stk with
    | none => none
    | some out => cgLoopF fuel out.1 out.2.1 out.2.2

/-- The code-generation loop over the whole program
(src/interpreter.cc:114-232). -/
def cgLoop (P : List Char) (code stk : List Nat) : Option (List Nat × List Nat) :=
  cgLoopF P.length P code stk

/-- `bfJITCompile`: prologue, code generation, epilogue.  `base` is
`reinterpret_cast<size_t>(state->ptr)`, the tape base address. -/
def bfJITCompile (P : List Char) (base : Nat) : Option (List Nat) :=
  match cgLoop P (jitPrologue base) [] with
  | some (code, _) => some (code ++ jitEpilogue)
  | none => none

/-! ## Semantics of the generated machine code

An operational model of exactly the x86-64 instruction encodings the
generator emits, executed against byte memory, an input stream (file
descriptor 0) and an output stream (file descriptor 1).  `rbx` holds an
absolute address; running a buffer produced by `bfJITCompile P base`
against memory whose tape lives at addresses `base, base+1, ...` mirrors
the source's `setupExecutableMem` jump into the buffer. -/

/-- Sign-extension of an 8-bit immediate (`add/sub rbx, imm8`, `jmp rel8`). -/
def sext8 (b : Nat) : Int := if b < 128 then (b : Int) else (b : Int) - 256

/-- Sign-extension of a 32-bit immediate (`je`/`jne rel32`). -/
def sext32 (u : Nat) : Int :=
  if u < 2147483648 then (u : Int) else (u : Int) - 4294967296

/-- Little-endian value of a byte list. -/
def leVal : List Nat → Nat
  | [] => 0
  | b :: r => b % 256 + 256 * leVal r

/-- Signed value of a 4-byte little-endian displacement. -/
def decode32 (bs : List Nat) : Int := sext32 (leVal bs)

/-- Machine state for generated code: program counter (index into the code
buffer), the registers the generated code uses, the zero flag, byte memory,
and the two host streams. -/
structure X86St where
  pc : Int
  rbx : Int
  rsi : Int
  eax : Nat
  edi : Nat
  edx : Nat
  zf : Bool
  mem : Int → Nat
  input : List Nat
  output : List Nat

/-- Zero-initialised machine about to execute buffer byte 0, with empty
stdin; memory is all zeroes (the freshly zero-initialised tape lives at
address 0). -/
def initX86 : X86St :=
  { pc := 0, rbx := 0, rsi := 0, eax := 0, edi := 0, edx := 0, zf := false,
    mem := fun _ => 0, input := [], output := [] }

/-- Result of running a generated buffer: `done` when the epilogue
(`pop rax; jmp rax`) returns to the host, `stuck` on any byte sequence the
generator never emits, `timeout` when fuel runs out. -/
inductive X86Out where
  | done (m : X86St)
  | stuck
  | timeout

/-- Fetch the code byte at `pos`. -/
def fetch (code : List Nat) (pos : Int) : Option Nat :=
  if pos < 0 then none else code.get? pos.toNat

/-- The `k` code bytes starting at `pos` (little-endian immediate). -/
def fetchImm (code : List Nat) (pos : Int) (k : Nat) : List Nat :=
  (code.drop pos.toNat).take k

/-- Execute the generated buffer for at most `fuel` instructions. -/
def x86Exec (code : List Nat) : Nat → X86St → X86Out
  | 0, _ => .timeout
  | fuel + 1, m =>
    match fetch code m.pc with
    | some 0x48 =>
      match fetch code (m.pc + 1) with
      | some 0xbb =>
        if (fetchImm code (m.pc + 2) 8).length = 8 then
          x86Exec code fuel
            { m with rbx := (leVal (fetchImm code (m.pc + 2) 8) : Int), pc := m.pc + 10 }
        else .stuck
      | some 0x83 =>
        match fetch code (m.pc + 2), fetch code (m.pc + 3) with
        | some 0xc3, some i =>
          x86Exec code fuel { m with rbx := m.rbx + sext8 i, pc := m.pc + 4 }
        | some 0xeb, some i =>
          x86Exec code fuel { m with rbx := m.rbx - sext8 i, pc := m.pc + 4 }
        | _, _ => .stuck
      | some 0x89 =>
        if fetch code (m.pc + 2) = some 0xde then
          x86Exec code fuel { m with rsi := m.rbx, pc := m.pc + 3 }
        else .stuck
      | _ => .stuck
    | some 0x80 =>
      match fetch code (m.pc + 1), fetch code (m.pc + 2) with
      | some 0x03, some i =>
        x86Exec code fuel
          { m with mem := Function.update m.mem m.rbx ((m.mem m.rbx + i) % 256),
                   pc := m.pc + 3 }
      | some 0x2b, some i =>
        x86Exec code fuel
          { m with mem := Function.update m.mem m.rbx
                     (((m.mem m.rbx : Int) - (i : Int)).emod 256).toNat,
                   pc := m.pc + 3 }
      | some 0x3b, some i =>
        x86Exec code fuel
          { m with zf := decide (m.mem m.rbx % 256 = i % 256), pc := m.pc + 3 }
      | _, _ => .stuck
    | some 0x0f =>
      match fetch code (m.pc + 1) with
      | some 0x84 =>
        if (fetchImm code (m.pc + 2) 4).length = 4 then
          x86Exec code fuel
            { m with pc := if m.zf
                then m.pc + 6 + sext32 (leVal (fetchImm code (m.pc + 2) 4))
                else m.pc + 6 }
        else .stuck
      | some 0x85 =>
        if (fetchImm code (m.pc + 2) 4).length = 4 then
          x86Exec code fuel
            { m with pc := if m.zf
                then m.pc + 6
                else m.pc + 6 + sext32 (leVal (fetchImm code (m.pc + 2) 4)) }
        else .stuck
      | some 0x05 =>
        if m.eax = 0x2000003 ∧ m.edi = 0 ∧ m.edx = 1 then
          match m.input with
          | [] => x86Exec code fuel { m with eax := 0, pc := m.pc + 2 }
          | b :: r =>
            x86Exec code fuel
              { m with mem := Function.update m.mem m.rsi (b % 256),
                       input := r, eax := 1, pc := m.pc + 2 }
        else if m.eax = 0x2000004 ∧ m.edi = 1 ∧ m.edx = 1 then
          x86Exec code fuel
            { m with output := m.output ++ [m.mem m.rsi % 256], eax := 1, pc := m.pc + 2 }
        else .stuck
      | _ => .stuck
    | some 0xb8 =>
      if (fetchImm code (m.pc + 1) 4).length = 4 then
        x86Exec code fuel
          { m with eax := leVal (fetchImm code (m.pc + 1) 4), pc := m.pc + 5 }
      else .stuck
    | some 0xbf =>
      if (fetchImm code (m.pc + 1) 4).length = 4 then
        x86Exec code fuel
          { m with edi := leVal (fetchImm code (m.pc + 1) 4), pc := m.pc + 5 }
      else .stuck
    | some 0xba =>
      if (fetchImm code (m.pc + 1) 4).length = 4 then
        x86Exec code fuel
          { m with edx := leVal (fetchImm code (m.pc + 1) 4), pc := m.pc + 5 }
      else .stuck
    | some 0xeb =>
      match fetch code (m.pc + 1) with
      | some i => x86Exec code fuel { m with pc := m.pc + 2 + sext8 i }
      | none => .stuck
    | some 0x58 =>
      if fetch code (m.pc + 1) = some 0xff then
        if fetch code (m.pc + 2) = some 0xe0 then .done m else .stuck
      else .stuck
    | _ => .stuck

/-- Cell 0 (address 0 = the tape base) after running a compiled buffer from
`initX86`; `none` if compilation or execution failed. -/
def x86Cell0 (fuel : Nat) (oc : Option (List Nat)) : Option Nat :=
  match oc with
  | some code =>
    match x86Exec code fuel initX86 with
    | .done m => some (m.mem 0)
    | _ => none
  | none => none

/-! ## The executable-memory allocation: `setupExecutableMem`
(src/interpreter.cc:41-65) -/

/-- The length argument the source passes to `mmap`:
`ceil(machineCode->size() / (double)pageSize)` — a page COUNT, in a
parameter that expects a byte count. -/
def mmapRequestLen (size pageSize : Nat) : Nat := (size + pageSize - 1) / pageSize

/-- The number of bytes actually mapped for that request: the kernel rounds
the requested length up to a whole number of pages. -/
def mmapMappedBytes (size pageSize : Nat) : Nat :=
  pageSize * ((mmapRequestLen size pageSize + pageSize - 1) / pageSize)

/-! ## Auxiliary notions used by the statements -/

/-- The part of a program before its first NUL character.  A C string ends
at its first `'\0'`, so this is the program the interpreter actually sees. -/
def nulTrunc (l : List Char) : List Char := l.takeWhile (fun c => c ≠ '\x00')

/-- `bfStep` results up to replacement of every stored program suffix by its
NUL-truncation. -/
def trRes : StepRes → StepRes
  | .cont p l k s => .cont (nulTrunc p) (l.map nulTrunc) k s
  | .halt s => .halt s
  | .fatal => .fatal

/-- Well-nested bracket structure (the Dyck grammar): empty, a non-bracket
character before a balanced program, or `[ B ] C` with `B`, `C` balanced. -/
inductive BfBalanced : List Char → Prop where
  | nil : BfBalanced []
  | tok (c : Char) (B : List Char) (h1 : c ≠ '[') (h2 : c ≠ ']') :
      BfBalanced B → BfBalanced (c :: B)
  | wrap (B C : List Char) : BfBalanced B → BfBalanced C →
      BfBalanced ('[' :: B ++ ']' :: C)

/-- No run of `+ - < >` crosses from the end of `A` into `R`: the code
generator coalesces maximal runs, so splitting `A ++ R` at a run boundary
would change the emitted immediates. -/
def runBoundary (A R : List Char) : Prop :=
  ∀ c, A.getLast? = some c → c ∈ (['+', '-', '<', '>'] : List Char) →
    R.head? ≠ some c

/-- Additionally, no trailing-`]` elision scan crosses from `A` into `R`. -/
def splitBoundary (A R : List Char) : Prop :=
  ∀ c, A.getLast? = some c → c ∈ (['+', '-', '<', '>', ']'] : List Char) →
    R.head? ≠ some c

/-! ## Basic lemmas about the embeddings -/

theorem countRun_le_length (c : Char) : ∀ l : List Char, countRun c l ≤ l.length := by
  intro l
  induction l with
  | nil => simp [countRun]
  | cons x xs ih =>
    by_cases h : x = c
    · simp only [countRun, if_pos h, List.length_cons]
      omega
    · simp [countRun, h]

theorem countRun_nil (c : Char) : countRun c [] = 0 := rfl

theorem countRun_cons_ne (c x : Char) (xs : List Char) (h : x ≠ c) :
    countRun c (x :: xs) = 0 := by simp [countRun, h]

theorem countRun_eq_zero_of_head (c : Char) (l : List Char) (h : l.head? ≠ some c) :
    countRun c l = 0 := by
  cases l with
  | nil => rfl
  | cons x xs =>
    simp only [List.head?] at h
    exact countRun_cons_ne c x xs (by intro hx; exact h (by rw [hx]))

theorem countRun_replicate (c : Char) (n : Nat) :
    countRun c (List.replicate n c) = n := by
  induction n with
  | zero => rfl
  | succ m ih => simp [List.replicate, countRun, ih]

theorem countRun_replicate_append (c : Char) (n : Nat) (l : List Char)
    (h : l.head? ≠ some c) :
    countRun c (List.replicate n c ++ l) = n := by
  induction n with
  | zero => simp [countRun_eq_zero_of_head c l h]
  | succ m ih => simp [List.replicate, countRun, ih]

set_option maxHeartbeats 1000000 in
theorem cgStep_rest_le (c : Char) (rest : List Char) (code stk : List Nat)
    (out : List Char × List Nat × List Nat) (h : cgStep c rest code stk = some out) :
    out.1.length ≤ rest.length := by
  cases stk with
  | nil =>
    unfold cgStep at h
    split_ifs at h <;> (cases h; simp only [List.length_drop]; omega)
  | cons p stk' =>
    unfold cgStep at h
    split_ifs at h <;> (cases h; simp only [List.length_drop]; omega)

theorem cgLoopF_irrel :
    ∀ f g (P : List Char) (code stk : List Nat), P.length ≤ g → g ≤ f →
      cgLoopF g P code stk = cgLoopF P.length P code stk := by
  intro f
  induction f with
  | zero =>
    intro g P code stk hP hg
    interval_cases g
    cases P with
    | nil => rfl
    | cons c rest => simp at hP
  | succ f ih =>
    intro g P code stk hP hg
    cases P with
    | nil =>
      cases g <;> rfl
    | cons c rest =>
      simp only [List.length_cons] at hP
      obtain ⟨g', rfl⟩ : ∃ g', g = g' + 1 := ⟨g - 1, by omega⟩
      show (match cgStep c rest code stk with
            | none => none
            | some out => cgLoopF g' out.1 out.2.1 out.2.2) =
           (match cgStep c rest code stk with
            | none => none
            | some out => cgLoopF rest.length out.1 out.2.1 out.2.2)
      cases hc : cgStep c rest code stk with
      | none => rfl
      | some out =>
        have hlen := cgStep_rest_le c rest code stk out hc
        have h1 : cgLoopF g' out.1 out.2.1 out.2.2 =
            cgLoopF out.1.length out.1 out.2.1 out.2.2 :=
          ih g' out.1 out.2.1 out.2.2 (by omega) (by omega)
        have h2 : cgLoopF rest.length out.1 out.2.1 out.2.2 =
            cgLoopF out.1.length out.1 out.2.1 out.2.2 :=
          ih rest.length out.1 out.2.1 out.2.2 (by omega) (by omega)
        show cgLoopF g' out.1 out.2.1 out.2.2 = cgLoopF rest.length out.1 out.2.1 out.2.2
        rw [h1, h2]

theorem cgLoop_nil (code stk : List Nat) : cgLoop [] code stk = some (code, stk) := rfl

theorem cgLoop_cons_some (c : Char) (rest rest' : List Char) (code stk code' stk' : List Nat)
    (h : cgStep c rest code stk = some (rest', code', stk')) :
    cgLoop (c :: rest) code stk = cgLoop rest' code' stk' := by
  have hlen := cgStep_rest_le c rest code stk (rest', code', stk') h
  show (match cgStep c rest code stk with
        | none => none
        | some out => cgLoopF rest.length out.1 out.2.1 out.2.2) = _
  rw [h]
  exact cgLoopF_irrel rest.length rest.length rest' code' stk' hlen le_rfl

theorem cgLoop_cons_none (c : Char) (rest : List Char) (code stk : List Nat)
    (h : cgStep c rest code stk = none) :
    cgLoop (c :: rest) code stk = none := by
  show (match cgStep c rest code stk with
        | none => none
        | some out => cgLoopF rest.length out.1 out.2.1 out.2.2) = none
  rw [h]

theorem cgStep_plus (rest : List Char) (code stk : List Nat) :
    cgStep '+' rest code stk =
      some (rest.drop (countRun '+' rest),
        code ++ [0x80, 0x03, (1 + countRun '+' rest) % 256], stk) := rfl

theorem cgStep_minus (rest : List Char) (code stk : List Nat) :
    cgStep '-' rest code stk =
      some (rest.drop (countRun '-' rest),
        code ++ [0x80, 0x2b, (1 + countRun '-' rest) % 256], stk) := rfl

theorem cgStep_right (rest : List Char) (code stk : List Nat) :
    cgStep '>' rest code stk =
      some (rest.drop (countRun '>' rest),
        code ++ [0x48, 0x83, 0xc3, (1 + countRun '>' rest) % 256], stk) := rfl

theorem cgStep_left (rest : List Char) (code stk : List Nat) :
    cgStep '<' rest code stk =
      some (rest.drop (countRun '<' rest),
        code ++ [0x48, 0x83, 0xeb, (1 + countRun '<' rest) % 256], stk) := rfl

theorem cgStep_comma (rest : List Char) (code stk : List Nat) :
    cgStep ',' rest code stk = some (rest, code ++ readBlock, stk) := rfl

theorem cgStep_dot (rest : List Char) (code stk : List Nat) :
    cgStep '.' rest code stk = some (rest, code ++ writeBlock, stk) := rfl

theorem cgStep_open (rest : List Char) (code stk : List Nat) :
    cgStep '[' rest code stk =
      some (rest, code ++ openBlock, (code.length + 9) :: stk) := rfl

theorem cgStep_close_nil (rest : List Char) (code : List Nat) :
    cgStep ']' rest code [] = none := rfl

theorem cgStep_close (rest : List Char) (code stk' : List Nat) (p : Nat) :
    cgStep ']' rest code (p :: stk') =
      some (rest,
        (if 0 < countRun ']' rest
         then cgClosePatch code p ++ [0xeb, (countRun ']' rest * 11 - 2) % 256]
         else cgClosePatch code p), stk') := rfl

theorem cgStep_default (c : Char) (rest : List Char) (code stk : List Nat)
    (h1 : c ≠ '+') (h2 : c ≠ '-') (h3 : c ≠ '>') (h4 : c ≠ '<')
    (h5 : c ≠ ',') (h6 : c ≠ '.') (h7 : c ≠ '[') (h8 : c ≠ ']') :
    cgStep c rest code stk = some (rest, code, stk) := by
  unfold cgStep
  simp [h1, h2, h3, h4, h5, h6, h7, h8]

/-! ## Claim C10 -/

/-- C10: when the interpreter executes `,` unsuppressed and the host input
stream is exhausted (`std::getchar()` returns EOF = -1), it stores the byte
value 255 (EOF cast to an unsigned 8-bit cell) into the current cell and
continues execution. -/
theorem c10_eof_reads_255 (rest : List Char) (loops : List (List Char)) (s : BfState)
    (h : s.input = []) :
    bfStep (',' :: rest) loops 0 s = .cont rest loops 0 (writeCell s 255) := by
  obtain ⟨tp, cu, inp, outp⟩ := s
  change inp = [] at h
  subst h
  rfl

/-- Witness for C10 at a concrete state. -/
theorem c10_eof_reads_255_witness :
    bfStep [','] [] 0 initState = .cont [] [] 0 (writeCell initState 255) :=
  c10_eof_reads_255 [] [] initState rfl

/-! ## Claim C3 -/

/-- C3: a `]` reached with an empty loop stack is fatal in the interpreter
(`std::terminate()`, src/interpreter.cc:292), for any program position and
state.  In JIT mode, however, the generator reads `jmpLocIndex.back()` from
an empty relocation stack (src/interpreter.cc:208) — an out-of-bounds read
with undefined behaviour, not a controlled fatal stop: the embedding maps
it to `none`.  Evaluated at the spec's own example program `"]"`. -/
theorem c3_unmatched_close :
    (∀ (rest : List Char) (nskip : Nat) (s : BfState),
      bfStep (']' :: rest) [] nskip s = StepRes.fatal) ∧
    outFatal (bfRun 1 [']'] [] 0 initState) = true ∧
    bfJITCompile [']'] 0 = none :=
  ⟨fun _ _ _ => rfl, rfl, rfl⟩

/-! ## Claim C4 -/

/-- Compiling `n` consecutive `,` commands emits a 20-byte read block per
command after the 10-byte prologue. -/
theorem cgLoop_commas : ∀ (n : Nat) (code stk : List Nat),
    ∃ ext : List Nat, cgLoop (List.replicate n ',') code stk = some (code ++ ext, stk) ∧
      ext.length = 20 * n := by
  intro n
  induction n with
  | zero =>
    intro code stk
    exact ⟨[], by simp [cgLoop_nil], rfl⟩
  | succ m ih =>
    intro code stk
    obtain ⟨ext, hrun, hlen⟩ := ih (code ++ readBlock) stk
    refine ⟨readBlock ++ ext, ?_, ?_⟩
    · rw [List.replicate_succ,
        cgLoop_cons_some ',' _ _ _ _ _ _ (cgStep_comma (List.replicate m ',') code stk), hrun]
      simp
    · simp [hlen, readBlock]
      ring

/-- C4: `setupExecutableMem` passes `ceil(size / pageSize)` — a page count —
as the BYTE length of `mmap` (src/interpreter.cc:46).  For the 4113-byte
buffer generated for 205 consecutive `,` commands and the standard 4096-byte
page, the request is 2 bytes, the kernel maps a single 4096-byte page, and
the subsequent copy writes 17 bytes outside the allocated region.  The
allocated region is NOT at least as large as the buffer. -/
theorem c4_exec_mem_undersized :
    (bfJITCompile (List.replicate 205 ',') 0).map List.length = some 4113 ∧
    mmapRequestLen 4113 4096 = 2 ∧
    mmapMappedBytes 4113 4096 = 4096 ∧
    4096 < 4113 := by
  refine ⟨?_, by decide, by decide, by decide⟩
  obtain ⟨ext, hrun, hlen⟩ := cgLoop_commas 205 (jitPrologue 0) []
  unfold bfJITCompile
  rw [hrun]
  simp [jitPrologue, le64, jitEpilogue, hlen]

/-! ## Claim C1 -/

/-- C1: interpreter and JIT are NOT observably identical for every
well-formed program with identical input streams.  The one-instruction
program `","` (balanced, cursor never moves) with an empty input stream is
well-formed; the interpreter stores `(unsigned char)getchar() = 255` at EOF
(src/interpreter.cc:277), while the generated `read(0, rbx, 1)` syscall
returns 0 at EOF and leaves the cell at 0 — the final tapes differ at the
(reached) cell 0. -/
theorem c1_mode_divergence_at_eof :
    tapeAt0 (bfRun 2 [','] [] 0 initState) = some 255 ∧
    x86Cell0 12 (bfJITCompile [','] 0) = some 0 ∧
    (255 : Nat) ≠ 0 :=
  ⟨rfl, rfl, by decide⟩

/-! ## Claim C2 -/

set_option maxRecDepth 8000 in
/-- C2 counterexample: for the run of 256 consecutive `+` the generator
emits a SINGLE `addb` instruction whose one-byte immediate is
`static_cast<uint8_t>(256) = 0` — the run is wrapped modulo 256, not split
into multiple instructions. -/
theorem c2_run_wraps_counterexample :
    bfJITCompile (List.replicate 256 '+') 0 =
      some (jitPrologue 0 ++ [0x80, 0x03, 0] ++ jitEpilogue) := by decide

/-- C2 amended: at any point of code generation (arbitrary already-emitted
code, relocation stack, and remaining program), a maximal run of `n ≥ 1`
consecutive identical `+`, `-`, `>` or `<` characters (maximal: the rest of
the program does not begin with the same character) is compiled to exactly
ONE emitted instruction whose one-byte immediate is `n % 256`, and the whole
run is consumed; runs longer than 255 wrap (the source documents them as
unsupported input, src/interpreter.cc:16). -/
theorem c2_amended_run_truncation (n : Nat) (h : 1 ≤ n) (rest : List Char)
    (code stk : List Nat) :
    (rest.head? ≠ some '+' →
      cgStep '+' (List.replicate (n - 1) '+' ++ rest) code stk =
        some (rest, code ++ [0x80, 0x03, n % 256], stk)) ∧
    (rest.head? ≠ some '-' →
      cgStep '-' (List.replicate (n - 1) '-' ++ rest) code stk =
        some (rest, code ++ [0x80, 0x2b, n % 256], stk)) ∧
    (rest.head? ≠ some '>' →
      cgStep '>' (List.replicate (n - 1) '>' ++ rest) code stk =
        some (rest, code ++ [0x48, 0x83, 0xc3, n % 256], stk)) ∧
    (rest.head? ≠ some '<' →
      cgStep '<' (List.replicate (n - 1) '<' ++ rest) code stk =
        some (rest, code ++ [0x48, 0x83, 0xeb, n % 256], stk)) := by
  refine ⟨?_, ?_, ?_, ?_⟩ <;> intro hr
  · rw [cgStep_plus, countRun_replicate_append '+' (n - 1) rest hr,
      List.drop_left' (by simp), show 1 + (n - 1) = n from by omega]
  · rw [cgStep_minus, countRun_replicate_append '-' (n - 1) rest hr,
      List.drop_left' (by simp), show 1 + (n - 1) = n from by omega]
  · rw [cgStep_right, countRun_replicate_append '>' (n - 1) rest hr,
      List.drop_left' (by simp), show 1 + (n - 1) = n from by omega]
  · rw [cgStep_left, countRun_replicate_append '<' (n - 1) rest hr,
      List.drop_left' (by simp), show 1 + (n - 1) = n from by omega]

/-- Witness for C2's amended claim: concrete maximal runs of length 300 of
each of the four characters, at the start of code generation, each emit the
single instruction with immediate `300 % 256 = 44`. -/
theorem c2_amended_run_truncation_witness :
    cgStep '+' (List.replicate 299 '+' ++ []) (jitPrologue 0) [] =
      some ([], jitPrologue 0 ++ [0x80, 0x03, 300 % 256], []) ∧
    cgStep '-' (List.replicate 299 '-' ++ []) (jitPrologue 0) [] =
      some ([], jitPrologue 0 ++ [0x80, 0x2b, 300 % 256], []) ∧
    cgStep '>' (List.replicate 299 '>' ++ []) (jitPrologue 0) [] =
      some ([], jitPrologue 0 ++ [0x48, 0x83, 0xc3, 300 % 256], []) ∧
    cgStep '<' (List.replicate 299 '<' ++ []) (jitPrologue 0) [] =
      some ([], jitPrologue 0 ++ [0x48, 0x83, 0xeb, 300 % 256], []) :=
  have h := c2_amended_run_truncation 300 (by decide) [] (jitPrologue 0) []
  ⟨h.1 (by decide), h.2.1 (by decide), h.2.2.1 (by decide), h.2.2.2 (by decide)⟩

/-! ## Claim C6 -/

set_option maxRecDepth 8000 in
/-- C6: for the balanced program of 13 nested loops
`[[[[[[[[[[[[[]]]]]]]]]]]]]`, the first `]` is followed by `n = 12` further
`]`.  The generator does emit a single `jmp rel8` (byte `0xeb` at offset
136), and the twelve trailing closers' blocks do occupy
`12 * 11 - 2 = 130` bytes (total buffer 271 = 138 + 130 + 3), but the
emitted displacement byte is `(12 * 11 - 2) % 256 = 130`, which as a SIGNED
8-bit displacement is `-126`: the jump goes 126 bytes backwards instead of
skipping 130 bytes forwards, so it does not land past the last trailing
closer's block. -/
theorem c6_elision_displacement_wraps :
    (bfJITCompile (List.replicate 13 '[' ++ List.replicate 13 ']') 0).map List.length =
      some 271 ∧
    (bfJITCompile (List.replicate 13 '[' ++ List.replicate 13 ']') 0).bind
      (fun L => L.get? 136) = some 0xeb ∧
    (bfJITCompile (List.replicate 13 '[' ++ List.replicate 13 ']') 0).bind
      (fun L => L.get? 137) = some ((12 * 11 - 2) % 256) ∧
    (12 * 11 - 2) % 256 = 130 ∧
    sext8 130 = -126 ∧
    (138 : Int) + sext8 130 ≠ (138 : Int) + (12 * 11 - 2) := by
  refine ⟨by decide, by decide, by decide, by decide, by decide, by decide⟩

/-! ## Step lemmas for the interpreter -/

theorem bfStep_nil (loops : List (List Char)) (nskip : Nat) (s : BfState) :
    bfStep [] loops nskip s = .halt s := rfl

theorem bfRun_succ (fuel : Nat) (prog : List Char) (loops : List (List Char))
    (nskip : Nat) (s : BfState) :
    bfRun (fuel + 1) prog loops nskip s =
      match bfStep prog loops nskip s with
      | .cont p l k s' => bfRun fuel p l k s'
      | .halt s' => .done s'
      | .fatal => .fatal := rfl

theorem bfRun_cont (fuel : Nat) (prog p : List Char) (loops l : List (List Char))
    (nskip k : Nat) (s s' : BfState) (h : bfStep prog loops nskip s = .cont p l k s') :
    bfRun (fuel + 1) prog loops nskip s = bfRun fuel p l k s' := by
  rw [bfRun_succ, h]

theorem bfRun_halt (fuel : Nat) (prog : List Char) (loops : List (List Char))
    (nskip : Nat) (s s' : BfState) (h : bfStep prog loops nskip s = .halt s') :
    bfRun (fuel + 1) prog loops nskip s = .done s' := by
  rw [bfRun_succ, h]

theorem bfStep_plus (rest : List Char) (loops : List (List Char)) (s : BfState) :
    bfStep ('+' :: rest) loops 0 s =
      .cont (rest.drop (1 + countRun '+' rest - 1)) loops 0
        (writeCell s ((s.tape s.cur + (1 + countRun '+' rest)) % 256)) := rfl

theorem bfStep_minus (rest : List Char) (loops : List (List Char)) (s : BfState) :
    bfStep ('-' :: rest) loops 0 s =
      .cont (rest.drop (1 + countRun '-' rest - 1)) loops 0
        (writeCell s (ucCast ((s.tape s.cur : Int) - ((1 + countRun '-' rest : Nat) : Int)))) :=
  rfl

theorem bfStep_plus_run (m : Nat) (rest : List Char) (loops : List (List Char)) (s : BfState)
    (h : rest.head? ≠ some '+') :
    bfStep (List.replicate (m + 1) '+' ++ rest) loops 0 s =
      .cont rest loops 0 (writeCell s ((s.tape s.cur + (1 + m)) % 256)) := by
  rw [List.replicate_succ, List.cons_append, bfStep_plus,
    countRun_replicate_append '+' m rest h]
  rw [List.drop_left' (show (List.replicate m '+').length = 1 + m - 1 from by simp)]

theorem bfStep_minus_run (m : Nat) (rest : List Char) (loops : List (List Char)) (s : BfState)
    (h : rest.head? ≠ some '-') :
    bfStep (List.replicate (m + 1) '-' ++ rest) loops 0 s =
      .cont rest loops 0 (writeCell s (ucCast ((s.tape s.cur : Int) - ((1 + m : Nat) : Int)))) := by
  rw [List.replicate_succ, List.cons_append, bfStep_minus,
    countRun_replicate_append '-' m rest h]
  rw [List.drop_left' (show (List.replicate m '-').length = 1 + m - 1 from by simp)]

theorem initState_cur : initState.cur = 0 := rfl

theorem writeCell_cur (s : BfState) (v : Nat) : (writeCell s v).cur = s.cur := rfl

theorem writeCell_tape_self (s : BfState) (v : Nat) : (writeCell s v).tape s.cur = v := by
  simp [writeCell]

theorem tapeAt0_done (s : BfState) : tapeAt0 (.done s) = some (s.tape 0) := rfl

theorem int_emod_256 (x : Int) : x.emod 256 = x % 256 := rfl

/-- Running a lone coalesced `-` run of length `j` (then reaching program
end) subtracts `j` from the current cell mod 256. -/
theorem bfRun_minus_phase (j fuel : Nat) (s : BfState) (hcur : s.cur = 0) :
    tapeAt0 (bfRun (fuel + 2) (List.replicate j '-') [] 0 s) =
      some (if j = 0 then s.tape 0 else ucCast ((s.tape 0 : Int) - (j : Int))) := by
  cases j with
  | zero =>
    rw [List.replicate_zero, bfRun_halt _ _ _ _ _ _ (bfStep_nil _ _ _)]
    simp [tapeAt0]
  | succ i =>
    have h1 := bfStep_minus_run i [] [] s (by simp)
    rw [List.append_nil] at h1
    rw [bfRun_cont _ _ _ _ _ _ _ _ _ h1,
      bfRun_halt _ _ _ _ _ _ (bfStep_nil _ _ _), tapeAt0_done,
      if_neg (Nat.succ_ne_zero i), ← hcur, writeCell_tape_self]
    congr 2
    push_cast
    ring

/-! ## Claim C8 -/

/-- C8: `k` consecutive `+` followed by `j` consecutive `-` (`k, j ≤ 255`)
on a zeroed cell leaves the cell holding `(k - j) mod 256`.  The `+` run is
coalesced into one `*ptr += k` and the `-` run into one `*ptr -= j`, both in
unsigned 8-bit arithmetic (src/interpreter.cc:266-274). -/
theorem c8_coalescing (k j : Nat) (hk : k ≤ 255) (hj : j ≤ 255) :
    tapeAt0 (bfRun 3 (List.replicate k '+' ++ List.replicate j '-') [] 0 initState) =
      some ((((k : Int) - (j : Int)).emod 256).toNat) := by
  cases k with
  | zero =>
    rw [List.replicate_zero, List.nil_append,
      show (3 : Nat) = 1 + 2 from rfl, bfRun_minus_phase j 1 initState initState_cur]
    rcases Nat.eq_zero_or_pos j with hj0 | hj0
    · subst hj0
      decide
    · rw [if_neg (by omega)]
      rfl
  | succ m =>
    have hhead : (List.replicate j '-').head? ≠ some '+' := by
      cases j with
      | zero => simp
      | succ i => simp [List.replicate_succ]
    have h1 := bfStep_plus_run m (List.replicate j '-') [] initState hhead
    rw [show (3 : Nat) = 2 + 1 from rfl, bfRun_cont _ _ _ _ _ _ _ _ _ h1,
      show (2 : Nat) = 0 + 2 from rfl,
      bfRun_minus_phase j 0 _ (by rw [writeCell_cur, initState_cur])]
    have htape : (writeCell initState ((initState.tape initState.cur + (1 + m)) % 256)).tape 0 =
        (1 + m) % 256 := by
      simp [writeCell, initState]
    rw [htape]
    rcases Nat.eq_zero_or_pos j with hj0 | hj0
    · subst hj0
      rw [if_pos rfl]
      congr 1
      rw [int_emod_256]
      omega
    · rw [if_neg (by omega)]
      unfold ucCast
      congr 1
      rw [int_emod_256, int_emod_256]
      push_cast
      omega

/-- Witness for C8 at `k = 5`, `j = 3`. -/
theorem c8_coalescing_witness :
    tapeAt0 (bfRun 3 (List.replicate 5 '+' ++ List.replicate 3 '-') [] 0 initState) =
      some (((((5 : Nat) : Int) - ((3 : Nat) : Int)).emod 256).toNat) :=
  c8_coalescing 5 3 (by decide) (by decide)

/-! ## Claim C7 -/

/-- C7: with suppression depth `nskip = k + 1 > 0`, each of
`+ - < > , .` advances the program without touching tape, cursor or the
I/O streams (the machine state `s` is returned unchanged), while `[` still
pushes the position after the bracket (and bumps the suppression depth when
the cell is zero, src/interpreter.cc:285-289) and `]` still performs its
stack and suppression bookkeeping (src/interpreter.cc:291-297). -/
theorem c7_suppressed_ops_are_noops (rest : List Char) (loops : List (List Char))
    (k : Nat) (s : BfState) (hd : loops.length < 100) :
    bfStep ('+' :: rest) loops (k + 1) s =
      .cont (rest.drop (countRun '+' rest)) loops (k + 1) s ∧
    bfStep ('-' :: rest) loops (k + 1) s =
      .cont (rest.drop (countRun '-' rest)) loops (k + 1) s ∧
    bfStep ('<' :: rest) loops (k + 1) s =
      .cont (rest.drop (countRun '<' rest)) loops (k + 1) s ∧
    bfStep ('>' :: rest) loops (k + 1) s =
      .cont (rest.drop (countRun '>' rest)) loops (k + 1) s ∧
    bfStep (',' :: rest) loops (k + 1) s = .cont rest loops (k + 1) s ∧
    bfStep ('.' :: rest) loops (k + 1) s = .cont rest loops (k + 1) s ∧
    bfStep ('[' :: rest) loops (k + 1) s =
      .cont rest (rest :: loops) (if s.tape s.cur = 0 then k + 2 else k + 1) s ∧
    bfStep (']' :: rest) loops (k + 1) s =
      (match loops with
       | [] => StepRes.fatal
       | top :: ltl =>
         .cont (if s.tape s.cur = 0 then rest else top)
               (if s.tape s.cur = 0 then ltl else top :: ltl) k s) := by
  refine ⟨?_, ?_, ?_, ?_, rfl, rfl, ?_, ?_⟩
  · show StepRes.cont (rest.drop (1 + countRun '+' rest - 1)) loops (k + 1) s = _
    rw [Nat.add_sub_cancel_left]
  · show StepRes.cont (rest.drop (1 + countRun '-' rest - 1)) loops (k + 1) s = _
    rw [Nat.add_sub_cancel_left]
  · show StepRes.cont (rest.drop (1 + countRun '<' rest - 1)) loops (k + 1) s = _
    rw [Nat.add_sub_cancel_left]
  · show StepRes.cont (rest.drop (1 + countRun '>' rest - 1)) loops (k + 1) s = _
    rw [Nat.add_sub_cancel_left]
  · show (if loops.length = 100 then StepRes.fatal
      else StepRes.cont rest (rest :: loops) (if s.tape s.cur = 0 then k + 2 else k + 1) s) = _
    rw [if_neg (by omega)]
  · cases loops with
    | nil => rfl
    | cons top ltl => rfl

/-- Witness for C7 at a concrete suppressed configuration (depth 1, one
stacked loop, zeroed tape). -/
theorem c7_suppressed_ops_are_noops_witness :
    bfStep ['+', 'a'] [['b']] 1 initState = .cont ['a'] [['b']] 1 initState ∧
    bfStep ['-', 'a'] [['b']] 1 initState = .cont ['a'] [['b']] 1 initState ∧
    bfStep ['<', 'a'] [['b']] 1 initState = .cont ['a'] [['b']] 1 initState ∧
    bfStep ['>', 'a'] [['b']] 1 initState = .cont ['a'] [['b']] 1 initState ∧
    bfStep [',', 'a'] [['b']] 1 initState = .cont ['a'] [['b']] 1 initState ∧
    bfStep ['.', 'a'] [['b']] 1 initState = .cont ['a'] [['b']] 1 initState ∧
    bfStep ['[', 'a'] [['b']] 1 initState = .cont ['a'] [['a'], ['b']] 2 initState ∧
    bfStep [']', 'a'] [['b']] 1 initState = .cont ['a'] [] 0 initState :=
  c7_suppressed_ops_are_noops ['a'] [['b']] 0 initState (by decide)

/-! ## NUL truncation (claim C9) -/

theorem bfStep_lt_any (rest : List Char) (loops : List (List Char)) (nskip : Nat) (s : BfState) :
    bfStep ('<' :: rest) loops nskip s =
      .cont (rest.drop (1 + countRun '<' rest - 1)) loops nskip
        (if nskip = 0 then { s with cur := s.cur - ((1 + countRun '<' rest : Nat) : Int) }
         else s) := rfl

theorem bfStep_gt_any (rest : List Char) (loops : List (List Char)) (nskip : Nat) (s : BfState) :
    bfStep ('>' :: rest) loops nskip s =
      .cont (rest.drop (1 + countRun '>' rest - 1)) loops nskip
        (if nskip = 0 then { s with cur := s.cur + ((1 + countRun '>' rest : Nat) : Int) }
         else s) := rfl

theorem bfStep_plus_any (rest : List Char) (loops : List (List Char)) (nskip : Nat) (s : BfState) :
    bfStep ('+' :: rest) loops nskip s =
      .cont (rest.drop (1 + countRun '+' rest - 1)) loops nskip
        (if nskip = 0 then writeCell s ((s.tape s.cur + (1 + countRun '+' rest)) % 256)
         else s) := rfl

theorem bfStep_minus_any (rest : List Char) (loops : List (List Char)) (nskip : Nat) (s : BfState) :
    bfStep ('-' :: rest) loops nskip s =
      .cont (rest.drop (1 + countRun '-' rest - 1)) loops nskip
        (if nskip = 0 then
          writeCell s (ucCast ((s.tape s.cur : Int) - ((1 + countRun '-' rest : Nat) : Int)))
         else s) := rfl

theorem bfStep_comma_any (rest : List Char) (loops : List (List Char)) (nskip : Nat) (s : BfState) :
    bfStep (',' :: rest) loops nskip s =
      (if nskip = 0 then
        .cont rest loops nskip
          (writeCell { s with input := (getcharInt s.input).2 } (ucCast (getcharInt s.input).1))
       else .cont rest loops nskip s) := rfl

theorem bfStep_dot_any (rest : List Char) (loops : List (List Char)) (nskip : Nat) (s : BfState) :
    bfStep ('.' :: rest) loops nskip s =
      (if nskip = 0 then .cont rest loops nskip { s with output := s.output ++ [s.tape s.cur] }
       else .cont rest loops nskip s) := rfl

theorem bfStep_open_any (rest : List Char) (loops : List (List Char)) (nskip : Nat) (s : BfState) :
    bfStep ('[' :: rest) loops nskip s =
      (if loops.length = 100 then .fatal
       else .cont rest (rest :: loops) (if s.tape s.cur = 0 then nskip + 1 else nskip) s) := rfl

theorem bfStep_close_any (rest : List Char) (loops : List (List Char)) (nskip : Nat) (s : BfState) :
    bfStep (']' :: rest) loops nskip s =
      (match loops with
       | [] => StepRes.fatal
       | top :: ltl =>
         .cont (if s.tape s.cur = 0 then rest else top)
               (if s.tape s.cur = 0 then ltl else top :: ltl)
               (nskip - 1) s) := rfl

theorem bfStep_space_any (rest : List Char) (loops : List (List Char)) (nskip : Nat) (s : BfState) :
    bfStep (' ' :: rest) loops nskip s =
      .cont (rest.drop (countRun ' ' rest)) loops nskip s := rfl

theorem bfStep_nul_any (rest : List Char) (loops : List (List Char)) (nskip : Nat) (s : BfState) :
    bfStep ('\x00' :: rest) loops nskip s = .halt s := rfl

set_option maxHeartbeats 1000000 in
theorem bfStep_default_any (c : Char) (rest : List Char) (loops : List (List Char))
    (nskip : Nat) (s : BfState)
    (h1 : c ≠ '<') (h2 : c ≠ '>') (h3 : c ≠ '+') (h4 : c ≠ '-') (h5 : c ≠ ',')
    (h6 : c ≠ '.') (h7 : c ≠ '[') (h8 : c ≠ ']') (h9 : c ≠ ' ') (h10 : c ≠ '\x00') :
    bfStep (c :: rest) loops nskip s = .cont rest loops nskip s := by
  unfold bfStep
  simp [h1, h2, h3, h4, h5, h6, h7, h8, h9, h10]

theorem countRun_nulTrunc (c : Char) (l : List Char) (hc : c ≠ '\x00') :
    countRun c (nulTrunc l) = countRun c l := by
  induction l with
  | nil => rfl
  | cons x xs ih =>
    by_cases hx : x = '\x00'
    · subst hx
      rw [countRun_cons_ne c '\x00' xs (by intro h; exact hc h.symm)]
      rfl
    · have : nulTrunc (x :: xs) = x :: nulTrunc xs := by simp [nulTrunc, hx]
      rw [this]
      by_cases hxc : x = c
      · subst hxc
        simp only [countRun, if_pos rfl, ih]
      · rw [countRun_cons_ne c x _ hxc, countRun_cons_ne c x _ hxc]

theorem nulTrunc_cons_ne (c : Char) (l : List Char) (hc : c ≠ '\x00') :
    nulTrunc (c :: l) = c :: nulTrunc l := by simp [nulTrunc, hc]

theorem nulTrunc_drop (c : Char) (hc : c ≠ '\x00') :
    ∀ (k : Nat) (l : List Char), k ≤ countRun c l →
      (nulTrunc l).drop k = nulTrunc (l.drop k) := by
  intro k
  induction k with
  | zero => intro l _; simp
  | succ i ih =>
    intro l hk
    cases l with
    | nil => simp [countRun] at hk
    | cons x xs =>
      by_cases hx : x = c
      · subst hx
        rw [nulTrunc_cons_ne x xs hc]
        show (nulTrunc xs).drop i = nulTrunc (xs.drop i)
        apply ih
        simp [countRun] at hk
        omega
      · rw [countRun_cons_ne c x xs hx] at hk
        omega

/-- One interpreter step commutes with NUL truncation of the program and of
every stored loop re-entry position. -/
theorem bfStep_trunc (P : List Char) (loops : List (List Char)) (nskip : Nat) (s : BfState) :
    bfStep (nulTrunc P) (loops.map nulTrunc) nskip s = trRes (bfStep P loops nskip s) := by
  cases P with
  | nil => rfl
  | cons c rest =>
    by_cases hnul : c = '\x00'
    · subst hnul
      rfl
    · rw [nulTrunc_cons_ne c rest hnul]
      by_cases h1 : c = '<'
      · subst h1
        rw [bfStep_lt_any, bfStep_lt_any, countRun_nulTrunc '<' rest (by decide),
          Nat.add_sub_cancel_left,
          nulTrunc_drop '<' (by decide) (countRun '<' rest) rest le_rfl]
        rfl
      by_cases h2 : c = '>'
      · subst h2
        rw [bfStep_gt_any, bfStep_gt_any, countRun_nulTrunc '>' rest (by decide),
          Nat.add_sub_cancel_left,
          nulTrunc_drop '>' (by decide) (countRun '>' rest) rest le_rfl]
        rfl
      by_cases h3 : c = '+'
      · subst h3
        rw [bfStep_plus_any, bfStep_plus_any, countRun_nulTrunc '+' rest (by decide),
          Nat.add_sub_cancel_left,
          nulTrunc_drop '+' (by decide) (countRun '+' rest) rest le_rfl]
        rfl
      by_cases h4 : c = '-'
      · subst h4
        rw [bfStep_minus_any, bfStep_minus_any, countRun_nulTrunc '-' rest (by decide),
          Nat.add_sub_cancel_left,
          nulTrunc_drop '-' (by decide) (countRun '-' rest) rest le_rfl]
        rfl
      by_cases h5 : c = ','
      · subst h5
        rw [bfStep_comma_any, bfStep_comma_any]
        by_cases hn : nskip = 0 <;> simp [hn, trRes]
      by_cases h6 : c = '.'
      · subst h6
        rw [bfStep_dot_any, bfStep_dot_any]
        by_cases hn : nskip = 0 <;> simp [hn, trRes]
      by_cases h7 : c = '['
      · subst h7
        rw [bfStep_open_any, bfStep_open_any, List.length_map]
        by_cases hl : loops.length = 100 <;> simp [hl, trRes]
      by_cases h8 : c = ']'
      · subst h8
        rw [bfStep_close_any, bfStep_close_any]
        cases loops with
        | nil => rfl
        | cons top ltl =>
          by_cases ht : s.tape s.cur = 0 <;> simp [ht, trRes]
      by_cases h9 : c = ' '
      · subst h9
        rw [bfStep_space_any, bfStep_space_any, countRun_nulTrunc ' ' rest (by decide),
          nulTrunc_drop ' ' (by decide) (countRun ' ' rest) rest le_rfl]
        rfl
      · rw [bfStep_default_any c rest loops nskip s h1 h2 h3 h4 h5 h6 h7 h8 h9 hnul,
          bfStep_default_any c (nulTrunc rest) (loops.map nulTrunc) nskip s
            h1 h2 h3 h4 h5 h6 h7 h8 h9 hnul]
        rfl

/-- A whole interpreter run only depends on the program (and stored loop
positions) up to the first NUL. -/
theorem bfRun_trunc (fuel : Nat) :
    ∀ (P : List Char) (loops : List (List Char)) (nskip : Nat) (s : BfState),
      bfRun fuel (nulTrunc P) (loops.map nulTrunc) nskip s = bfRun fuel P loops nskip s := by
  induction fuel with
  | zero => intro P loops nskip s; rfl
  | succ f ih =>
    intro P loops nskip s
    rw [bfRun_succ, bfRun_succ, bfStep_trunc]
    cases hstep : bfStep P loops nskip s with
    | cont p l k s' => exact ih p l k s'
    | halt s' => rfl
    | fatal => rfl

theorem nulTrunc_append (A B' : List Char) (hA : '\x00' ∉ A) :
    nulTrunc (A ++ B') = A ++ nulTrunc B' := by
  induction A with
  | nil => rfl
  | cons a A' ih =>
    have ha : a ≠ '\x00' := fun h => hA (h ▸ List.mem_cons_self a A')
    rw [List.cons_append, nulTrunc_cons_ne a _ ha,
      ih (fun hm => hA (List.mem_cons_of_mem a hm)), List.cons_append]

/-! ## Claim C9 -/

/-- C9: an embedded NUL acts as end-of-program (src/interpreter.cc:302-304):
running a program with a `'\x00'` at any position is exactly running the
part before the NUL — the interpreter terminates normally there and no
instruction after the NUL is ever executed, for any fuel, any tail `B` and
any starting state. -/
theorem c9_nul_ends_program (fuel : Nat) (A B : List Char) (s : BfState)
    (hA : '\x00' ∉ A) :
    bfRun fuel (A ++ '\x00' :: B) [] 0 s = bfRun fuel A [] 0 s := by
  have h1 : nulTrunc (A ++ '\x00' :: B) = A := by
    rw [nulTrunc_append A _ hA]
    rw [show nulTrunc ('\x00' :: B) = [] from rfl, List.append_nil]
  have h2 := bfRun_trunc fuel (A ++ '\x00' :: B) [] 0 s
  rw [h1] at h2
  exact h2.symm

/-- Witness for C9: `"+\x00-"` behaves exactly like `"+"`. -/
theorem c9_nul_ends_program_witness :
    bfRun 5 (['+'] ++ '\x00' :: ['-']) [] 0 initState = bfRun 5 ['+'] [] 0 initState :=
  c9_nul_ends_program 5 ['+'] ['-'] initState (by decide)

/-! ## Shape of the `]` backpatch -/

theorem closeBlock_split :
    closeBlock = [0x80, 0x3b, 0x00, 0x0f, 0x85] ++ [0, 0, 0, 0] := rfl

theorem openBlock_split :
    openBlock = [0x80, 0x3b, 0x00, 0x0f, 0x84] ++ [0, 0, 0, 0] := rfl

theorem le32_length (x : Nat) : (le32 x).length = 4 := rfl

/-- Explicit form of the `]` buffer transformation: the matching `[`'s four
placeholder bytes (at `p-4 .. p`) are replaced by the forward displacement,
the block `cmp byte [rbx],0; jne` is appended, and its own four placeholder
bytes are replaced by the backward displacement. -/
theorem cgClosePatch_eq (code : List Nat) (p : Nat) (_hp4 : 4 ≤ p) (hp : p ≤ code.length) :
    cgClosePatch code p =
      code.take (p - 4) ++
      le32 ((((code.length + 9 : Nat) : Int) - (p : Int)).emod 4294967296).toNat ++
      (code.drop p ++ [0x80, 0x3b, 0x00, 0x0f, 0x85] ++
       le32 ((((p : Nat) : Int) - ((code.length + 9 : Nat) : Int)).emod 4294967296).toNat) := by
  simp only [cgClosePatch]
  have hlen1 : (code ++ closeBlock).length = code.length + 9 := by
    simp [closeBlock]
  rw [hlen1]
  have htake1 : (code ++ closeBlock).take (code.length + 9 - 4) =
      code ++ [0x80, 0x3b, 0x00, 0x0f, 0x85] := by
    rw [show code.length + 9 - 4 = code.length + 5 from rfl, closeBlock_split,
      List.take_append_eq_append_take, List.take_of_length_le (by omega),
      List.take_append_eq_append_take]
    simp
  rw [htake1]
  have htake2 : ∀ bD : List Nat,
      ((code ++ [0x80, 0x3b, 0x00, 0x0f, 0x85]) ++ bD).take (p - 4) = code.take (p - 4) := by
    intro bD
    rw [List.take_append_eq_append_take, List.take_append_eq_append_take]
    have h1 : p - 4 - code.length = 0 := by omega
    have h2 : p - 4 - (code ++ [0x80, 0x3b, 0x00, 0x0f, 0x85]).length = 0 := by
      simp
      omega
    rw [h1, h2]
    simp
  have hdrop2 : ∀ bD : List Nat,
      ((code ++ [0x80, 0x3b, 0x00, 0x0f, 0x85]) ++ bD).drop p =
        code.drop p ++ [0x80, 0x3b, 0x00, 0x0f, 0x85] ++ bD := by
    intro bD
    rw [List.drop_append_eq_append_drop, List.drop_append_eq_append_drop]
    have h1 : p - code.length = 0 := by omega
    have h2 : p - (code ++ [0x80, 0x3b, 0x00, 0x0f, 0x85]).length = 0 := by
      simp
      omega
    rw [h1, h2]
    simp
  rw [htake2, hdrop2]

theorem cgClosePatch_length (code : List Nat) (p : Nat) (hp4 : 4 ≤ p) (hp : p ≤ code.length) :
    (cgClosePatch code p).length = code.length + 9 := by
  rw [cgClosePatch_eq code p hp4 hp]
  simp [le32]
  omega

theorem cgClosePatch_get?_low (code : List Nat) (p i : Nat) (hp4 : 4 ≤ p)
    (hp : p ≤ code.length) (hi : i + 4 < p) :
    (cgClosePatch code p).get? i = code.get? i := by
  rw [cgClosePatch_eq code p hp4 hp]
  rw [List.get?_append (by simp [le32]; omega), List.get?_append (by simp; omega),
    List.get?_take (by omega)]

theorem cgClosePatch_get?_high (code : List Nat) (p i : Nat) (hp4 : 4 ≤ p)
    (hp : p ≤ code.length) (hpi : p ≤ i) (hi : i < code.length) :
    (cgClosePatch code p).get? i = code.get? i := by
  rw [cgClosePatch_eq code p hp4 hp]
  have e1 : (code.take (p - 4) ++
      le32 ((((code.length + 9 : Nat) : Int) - (p : Int)).emod 4294967296).toNat).length = p := by
    simp [le32]
    omega
  rw [List.get?_append_right (by rw [e1]; omega), e1,
    List.get?_append (by simp; omega), List.get?_append (by simp; omega),
    List.get?_drop]
  congr 1
  omega

/-! ## Growth, stack and byte-preservation invariants of the generator -/

set_option maxHeartbeats 1600000 in
/-- Shape of any successful generator step: either bytes are only appended
(with the stack unchanged or a new entry `code.length + 9` pushed), or a `]`
pops the stack and performs the backpatch (possibly followed by an elision
jump). -/
theorem cgStep_cases (c : Char) (rest : List Char) (code stk : List Nat)
    (out : List Char × List Nat × List Nat) (h : cgStep c rest code stk = some out) :
    (∃ X k, out = (rest.drop k, code ++ X, stk) ∧ k ≤ rest.length) ∨
    out = (rest, code ++ openBlock, (code.length + 9) :: stk) ∨
    (∃ p stk' E, stk = p :: stk' ∧ out = (rest, cgClosePatch code p ++ E, stk')) := by
  cases stk with
  | nil =>
    unfold cgStep at h
    split_ifs at h <;> cases h
    case _ => exact Or.inl ⟨_, _, rfl, countRun_le_length _ _⟩
    case _ => exact Or.inl ⟨_, _, rfl, countRun_le_length _ _⟩
    case _ => exact Or.inl ⟨_, _, rfl, countRun_le_length _ _⟩
    case _ => exact Or.inl ⟨_, _, rfl, countRun_le_length _ _⟩
    case _ => exact Or.inl ⟨_, 0, rfl, by omega⟩
    case _ => exact Or.inl ⟨_, 0, rfl, by omega⟩
    case _ => exact Or.inr (Or.inl rfl)
    case _ => exact Or.inl ⟨[], 0, by simp, by omega⟩
  | cons p stk' =>
    unfold cgStep at h
    split_ifs at h <;> cases h
    case _ => exact Or.inl ⟨_, _, rfl, countRun_le_length _ _⟩
    case _ => exact Or.inl ⟨_, _, rfl, countRun_le_length _ _⟩
    case _ => exact Or.inl ⟨_, _, rfl, countRun_le_length _ _⟩
    case _ => exact Or.inl ⟨_, _, rfl, countRun_le_length _ _⟩
    case _ => exact Or.inl ⟨_, 0, rfl, by omega⟩
    case _ => exact Or.inl ⟨_, 0, rfl, by omega⟩
    case _ => exact Or.inr (Or.inl rfl)
    case _ =>
      exact Or.inr (Or.inr ⟨p, stk', [0xeb, (countRun ']' rest * 11 - 2) % 256], rfl, rfl⟩)
    case _ => exact Or.inr (Or.inr ⟨p, stk', [], rfl, by simp⟩)
    case _ => exact Or.inl ⟨[], 0, by simp, by omega⟩

/-- Invariants of a full generator run: the buffer only grows; every stack
entry stays a position at least 4 and at most the final buffer length; and
every byte below the initial buffer length that is not among the 4
placeholder bytes `[e-4, e)` of a pending relocation-stack entry `e` is
never modified. -/
theorem cgLoop_facts :
    ∀ (N : Nat) (T : List Char) (code stk fin stkF : List Nat),
      T.length ≤ N →
      (∀ e ∈ stk, 4 ≤ e ∧ e ≤ code.length) →
      cgLoop T code stk = some (fin, stkF) →
      code.length ≤ fin.length ∧
      (∀ e ∈ stkF, 4 ≤ e ∧ e ≤ fin.length) ∧
      (∀ i, i < code.length → (∀ e ∈ stk, e ≤ i ∨ i + 4 < e) →
        fin.get? i = code.get? i) := by
  intro N
  induction N with
  | zero =>
    intro T code stk fin stkF hT hwf hrun
    have hTnil : T = [] := List.eq_nil_of_length_eq_zero (by omega)
    subst hTnil
    rw [cgLoop_nil] at hrun
    cases hrun
    exact ⟨le_rfl, hwf, fun i _ _ => rfl⟩
  | succ N ih =>
    intro T code stk fin stkF hT hwf hrun
    cases T with
    | nil =>
      rw [cgLoop_nil] at hrun
      cases hrun
      exact ⟨le_rfl, hwf, fun i _ _ => rfl⟩
    | cons c rest =>
      simp only [List.length_cons] at hT
      cases hstep : cgStep c rest code stk with
      | none =>
        rw [cgLoop_cons_none _ _ _ _ hstep] at hrun
        cases hrun
      | some out =>
        obtain ⟨rest', code', stk'⟩ := out
        rw [cgLoop_cons_some _ _ _ _ _ _ _ hstep] at hrun
        have hrlen := cgStep_rest_le c rest code stk _ hstep
        simp only at hrlen
        rcases cgStep_cases c rest code stk _ hstep with
          ⟨X, k, heq, hk⟩ | heq | ⟨p, stk0, E, hstkeq, heq⟩
        · cases heq
          have hwf' : ∀ e ∈ stk, 4 ≤ e ∧ e ≤ (code ++ X).length := fun e he =>
            ⟨(hwf e he).1, le_trans (hwf e he).2 (by simp)⟩
          obtain ⟨hm, hs, hpres⟩ := ih (rest.drop k) (code ++ X) stk fin stkF
            (by simp only [List.length_drop]; omega) hwf' hrun
          refine ⟨le_trans (by simp) hm, hs, ?_⟩
          intro i hi hcond
          rw [hpres i (by simp; omega) hcond, List.get?_append (by omega)]
        · cases heq
          have hwf' : ∀ e ∈ (code.length + 9) :: stk, 4 ≤ e ∧ e ≤ (code ++ openBlock).length := by
            intro e he
            rcases List.mem_cons.mp he with rfl | he'
            · exact ⟨by omega, by simp [openBlock]⟩
            · exact ⟨(hwf e he').1, le_trans (hwf e he').2 (by simp)⟩
          obtain ⟨hm, hs, hpres⟩ := ih rest (code ++ openBlock) _ fin stkF
            (by omega) hwf' hrun
          refine ⟨le_trans (by simp) hm, hs, ?_⟩
          intro i hi hcond
          have hcond' : ∀ e ∈ (code.length + 9) :: stk, e ≤ i ∨ i + 4 < e := by
            intro e he
            rcases List.mem_cons.mp he with rfl | he'
            · right; omega
            · exact hcond e he'
          rw [hpres i (by simp; omega) hcond', List.get?_append (by omega)]
        · cases heq
          subst hstkeq
          have hp4 : 4 ≤ p := (hwf p (List.mem_cons_self _ _)).1
          have hple : p ≤ code.length := (hwf p (List.mem_cons_self _ _)).2
          have hlen : (cgClosePatch code p ++ E).length = code.length + 9 + E.length := by
            simp [cgClosePatch_length code p hp4 hple]
          have hwf' : ∀ e ∈ stk', 4 ≤ e ∧ e ≤ (cgClosePatch code p ++ E).length := by
            intro e he
            have h := hwf e (List.mem_cons_of_mem _ he)
            exact ⟨h.1, by omega⟩
          obtain ⟨hm, hs, hpres⟩ := ih rest _ stk' fin stkF (by omega) hwf' hrun
          refine ⟨by omega, hs, ?_⟩
          intro i hi hcond
          have hcondp := hcond p (List.mem_cons_self _ _)
          have hcond' : ∀ e ∈ stk', e ≤ i ∨ i + 4 < e := fun e he =>
            hcond e (List.mem_cons_of_mem _ he)
          rw [hpres i (by omega) hcond',
            List.get?_append (by rw [cgClosePatch_length code p hp4 hple]; omega)]
          rcases hcondp with hle | hlt
          · exact cgClosePatch_get?_high code p i hp4 hple hle hi
          · exact cgClosePatch_get?_low code p i hp4 hple hlt

/-! ## Splitting a generator run at a group boundary -/

theorem getLast?_cons_of_ne {α : Type} (a : α) (l : List α) (h : l ≠ []) :
    (a :: l).getLast? = l.getLast? := by
  cases l with
  | nil => exact absurd rfl h
  | cons x xs => exact List.getLast?_cons_cons

theorem getLast?_drop_of_ne {α : Type} :
    ∀ (k : Nat) (l : List α), l.drop k ≠ [] → (l.drop k).getLast? = l.getLast? := by
  intro k
  induction k with
  | zero => intro l _; rfl
  | succ i ih =>
    intro l hne
    cases l with
    | nil => simp at hne
    | cons a l' =>
      rw [List.drop_succ_cons] at hne ⊢
      rw [ih l' hne, getLast?_cons_of_ne a l' (by intro h; rw [h] at hne; simp at hne)]

theorem splitBoundary_tail (t : Char) (A' R : List Char) (hb : splitBoundary (t :: A') R) :
    splitBoundary A' R := by
  intro c hc hmem
  cases A' with
  | nil => simp at hc
  | cons x xs =>
    exact hb c (by rw [getLast?_cons_of_ne t (x :: xs) (by simp)]; exact hc) hmem

theorem splitBoundary_drop (A R : List Char) (k : Nat) (hb : splitBoundary A R) :
    splitBoundary (A.drop k) R := by
  intro c hc hmem
  have hne : A.drop k ≠ [] := by intro h; rw [h] at hc; simp at hc
  exact hb c (by rw [← getLast?_drop_of_ne k A hne]; exact hc) hmem

theorem runBoundary_tail (t : Char) (A' R : List Char) (hb : runBoundary (t :: A') R) :
    runBoundary A' R := by
  intro c hc hmem
  cases A' with
  | nil => simp at hc
  | cons x xs =>
    exact hb c (by rw [getLast?_cons_of_ne t (x :: xs) (by simp)]; exact hc) hmem

theorem runBoundary_drop (A R : List Char) (k : Nat) (hb : runBoundary A R) :
    runBoundary (A.drop k) R := by
  intro c hc hmem
  have hne : A.drop k ≠ [] := by intro h; rw [h] at hc; simp at hc
  exact hb c (by rw [← getLast?_drop_of_ne k A hne]; exact hc) hmem

theorem countRun_cons_self (c : Char) (l : List Char) :
    countRun c (c :: l) = countRun c l + 1 := by simp [countRun]

theorem countRun_append_lt (c : Char) (X Y : List Char) (h : countRun c X < X.length) :
    countRun c (X ++ Y) = countRun c X := by
  induction X with
  | nil => simp at h
  | cons x xs ih =>
    by_cases hx : x = c
    · subst hx
      rw [List.cons_append, countRun_cons_self, countRun_cons_self]
      rw [countRun_cons_self, List.length_cons] at h
      rw [ih (by omega)]
    · rw [List.cons_append, countRun_cons_ne c x _ hx, countRun_cons_ne c x _ hx]

theorem countRun_append_full (c : Char) (X Y : List Char) (h : countRun c X = X.length) :
    countRun c (X ++ Y) = X.length + countRun c Y := by
  induction X with
  | nil => simp
  | cons x xs ih =>
    by_cases hx : x = c
    · subst hx
      rw [List.cons_append, countRun_cons_self]
      rw [countRun_cons_self, List.length_cons] at h
      rw [ih (by omega), List.length_cons]
      omega
    · rw [countRun_cons_ne c x _ hx] at h
      simp at h

theorem countRun_full_getLast (c : Char) :
    ∀ A' : List Char, countRun c A' = A'.length → (c :: A').getLast? = some c := by
  intro A'
  induction A' with
  | nil => intro _; rfl
  | cons x xs ih =>
    intro h
    by_cases hx : x = c
    · subst hx
      rw [getLast?_cons_of_ne x (x :: xs) (by simp)]
      apply ih
      rw [countRun_cons_self, List.length_cons] at h
      omega
    · rw [countRun_cons_ne c x _ hx] at h
      simp at h

theorem drop_append_le {α : Type} (X Y : List α) (k : Nat) (h : k ≤ X.length) :
    (X ++ Y).drop k = X.drop k ++ Y := by
  rw [List.drop_append_eq_append_drop, show k - X.length = 0 from by omega, List.drop_zero]

/-- Auxiliary split case: a coalesced-run instruction (`+ - < >`). -/
theorem cgLoop_split_run_aux (N : Nat) (c : Char) (f : Nat → List Nat)
    (hstep : ∀ (rest : List Char) (code stk : List Nat),
      cgStep c rest code stk =
        some (rest.drop (countRun c rest), code ++ f (countRun c rest), stk))
    (hcmem : c ∈ (['+', '-', '<', '>', ']'] : List Char))
    (ih : ∀ (A : List Char), A.length ≤ N → ∀ (R : List Char) (code stk : List Nat),
      splitBoundary A R →
      cgLoop (A ++ R) code stk = (cgLoop A code stk).bind (fun o => cgLoop R o.1 o.2))
    (A' R : List Char) (code stk : List Nat)
    (hlen : A'.length ≤ N)
    (hb : splitBoundary (c :: A') R) :
    cgLoop ((c :: A') ++ R) code stk =
      (cgLoop (c :: A') code stk).bind (fun o => cgLoop R o.1 o.2) := by
  rw [List.cons_append,
    cgLoop_cons_some _ _ _ _ _ _ _ (hstep (A' ++ R) code stk),
    cgLoop_cons_some _ _ _ _ _ _ _ (hstep A' code stk)]
  by_cases hfull : countRun c A' = A'.length
  · have hlast : (c :: A').getLast? = some c := countRun_full_getLast c A' hfull
    have hR : R.head? ≠ some c := hb c hlast hcmem
    have hcnt : countRun c (A' ++ R) = A'.length := by
      rw [countRun_append_full c A' R hfull, countRun_eq_zero_of_head c R hR]
      omega
    rw [hcnt, hfull, drop_append_le A' R A'.length le_rfl, List.drop_length,
      List.nil_append, cgLoop_nil]
    rfl
  · have hlt : countRun c A' < A'.length :=
      lt_of_le_of_ne (countRun_le_length c A') hfull
    have hcnt : countRun c (A' ++ R) = countRun c A' := countRun_append_lt c A' R hlt
    rw [hcnt, drop_append_le A' R (countRun c A') (le_of_lt hlt)]
    exact ih (A'.drop (countRun c A')) (by simp only [List.length_drop]; omega) R _ _
      (splitBoundary_drop A' R _ (splitBoundary_tail c A' R hb))

/-- Auxiliary split case: a single-token instruction that only transforms
the buffer (`, .` and ignored characters). -/
theorem cgLoop_split_one_aux (N : Nat) (c : Char) (g : List Nat → List Nat)
    (hstep : ∀ (rest : List Char) (code stk : List Nat),
      cgStep c rest code stk = some (rest, g code, stk))
    (ih : ∀ (A : List Char), A.length ≤ N → ∀ (R : List Char) (code stk : List Nat),
      splitBoundary A R →
      cgLoop (A ++ R) code stk = (cgLoop A code stk).bind (fun o => cgLoop R o.1 o.2))
    (A' R : List Char) (code stk : List Nat)
    (hlen : A'.length ≤ N)
    (hb : splitBoundary (c :: A') R) :
    cgLoop ((c :: A') ++ R) code stk =
      (cgLoop (c :: A') code stk).bind (fun o => cgLoop R o.1 o.2) := by
  rw [List.cons_append,
    cgLoop_cons_some _ _ _ _ _ _ _ (hstep (A' ++ R) code stk),
    cgLoop_cons_some _ _ _ _ _ _ _ (hstep A' code stk)]
  exact ih A' hlen R (g code) stk (splitBoundary_tail c A' R hb)

/-- Splitting a generator run at any boundary not crossed by a coalesced
run or by a trailing-`]` elision scan: compiling `A ++ R` is compiling `A`
and then compiling `R` from the resulting buffer and stack. -/
theorem cgLoop_append_split :
    ∀ (N : Nat) (A : List Char), A.length ≤ N →
      ∀ (R : List Char) (code stk : List Nat), splitBoundary A R →
        cgLoop (A ++ R) code stk = (cgLoop A code stk).bind (fun o => cgLoop R o.1 o.2) := by
  intro N
  induction N with
  | zero =>
    intro A hA R code stk _
    have hAnil : A = [] := List.eq_nil_of_length_eq_zero (by omega)
    subst hAnil
    rw [List.nil_append, cgLoop_nil]
    rfl
  | succ N ih =>
    intro A hA R code stk hb
    cases A with
    | nil =>
      rw [List.nil_append, cgLoop_nil]
      rfl
    | cons c A' =>
      simp only [List.length_cons] at hA
      by_cases h1 : c = '+'
      · subst h1
        exact cgLoop_split_run_aux N '+' (fun k => [0x80, 0x03, (1 + k) % 256])
          cgStep_plus (by simp) ih A' R code stk (by omega) hb
      by_cases h2 : c = '-'
      · subst h2
        exact cgLoop_split_run_aux N '-' (fun k => [0x80, 0x2b, (1 + k) % 256])
          cgStep_minus (by simp) ih A' R code stk (by omega) hb
      by_cases h3 : c = '>'
      · subst h3
        exact cgLoop_split_run_aux N '>' (fun k => [0x48, 0x83, 0xc3, (1 + k) % 256])
          cgStep_right (by simp) ih A' R code stk (by omega) hb
      by_cases h4 : c = '<'
      · subst h4
        exact cgLoop_split_run_aux N '<' (fun k => [0x48, 0x83, 0xeb, (1 + k) % 256])
          cgStep_left (by simp) ih A' R code stk (by omega) hb
      by_cases h5 : c = ','
      · subst h5
        exact cgLoop_split_one_aux N ',' (fun code => code ++ readBlock) cgStep_comma
          ih A' R code stk (by omega) hb
      by_cases h6 : c = '.'
      · subst h6
        exact cgLoop_split_one_aux N '.' (fun code => code ++ writeBlock) cgStep_dot
          ih A' R code stk (by omega) hb
      by_cases h7 : c = '['
      · subst h7
        rw [List.cons_append,
          cgLoop_cons_some _ _ _ _ _ _ _ (cgStep_open (A' ++ R) code stk),
          cgLoop_cons_some _ _ _ _ _ _ _ (cgStep_open A' code stk)]
        exact ih A' (by omega) R _ _ (splitBoundary_tail '[' A' R hb)
      by_cases h8 : c = ']'
      · subst h8
        cases stk with
        | nil =>
          rw [List.cons_append,
            cgLoop_cons_none _ _ _ _ (cgStep_close_nil (A' ++ R) code),
            cgLoop_cons_none _ _ _ _ (cgStep_close_nil A' code)]
          rfl
        | cons p stk' =>
          have hcnt : countRun ']' (A' ++ R) = countRun ']' A' := by
            by_cases hfull : countRun ']' A' = A'.length
            · have hlast : (']' :: A').getLast? = some ']' :=
                countRun_full_getLast ']' A' hfull
              have hR : R.head? ≠ some ']' := hb ']' hlast (by simp)
              rw [countRun_append_full ']' A' R hfull, countRun_eq_zero_of_head ']' R hR]
              omega
            · exact countRun_append_lt ']' A' R
                (lt_of_le_of_ne (countRun_le_length ']' A') hfull)
          rw [List.cons_append,
            cgLoop_cons_some _ _ _ _ _ _ _ (cgStep_close (A' ++ R) code stk' p),
            cgLoop_cons_some _ _ _ _ _ _ _ (cgStep_close A' code stk' p), hcnt]
          exact ih A' (by omega) R _ stk' (splitBoundary_tail ']' A' R hb)
      · exact cgLoop_split_one_aux N c (fun code => code)
          (fun rest code stk => cgStep_default c rest code stk h1 h2 h3 h4 h5 h6 h7 h8)
          ih A' R code stk (by omega) hb

/-! ## Compiling a balanced segment -/

theorem getLast?_append_right {α : Type} (X Y : List α) (h : Y ≠ []) :
    (X ++ Y).getLast? = Y.getLast? := by
  induction X with
  | nil => rfl
  | cons x xs ih =>
    rw [List.cons_append, getLast?_cons_of_ne x (xs ++ Y) (by simp [h]), ih]

theorem exists_append_of_get? (code L : List Nat) (_hlen : code.length ≤ L.length)
    (h : ∀ i, i < code.length → L.get? i = code.get? i) : ∃ t, L = code ++ t := by
  refine ⟨L.drop code.length, ?_⟩
  have htake : L.take code.length = code := by
    apply List.ext_get?
    intro n
    by_cases hn : n < code.length
    · rw [List.get?_take hn, h n hn]
    · rw [List.get?_eq_none.mpr (by simp; omega), List.get?_eq_none.mpr (by omega)]
  calc L = L.take code.length ++ L.drop code.length := (List.take_append_drop _ _).symm
  _ = code ++ L.drop code.length := by rw [htake]

theorem bfBalanced_cons_inv (c : Char) (B : List Char) (h : BfBalanced (c :: B))
    (h1 : c ≠ '[') : BfBalanced B := by
  cases h with
  | tok _ _ _ _ hB => exact hB
  | wrap B0 C0 hB0 hC0 => exact absurd rfl h1

theorem bfBalanced_drop_run (c : Char) (h1 : c ≠ '[') (h2 : c ≠ ']') :
    ∀ (k : Nat) (B : List Char), k ≤ countRun c B → BfBalanced B →
      BfBalanced (B.drop k) := by
  intro k
  induction k with
  | zero => intro B _ hB; simpa using hB
  | succ i ih =>
    intro B hk hB
    cases B with
    | nil => simp [countRun] at hk
    | cons x xs =>
      have hx : x = c := by
        by_contra hne
        rw [countRun_cons_ne c x xs hne] at hk
        omega
      subst hx
      rw [List.drop_succ_cons]
      apply ih
      · rw [countRun_cons_self] at hk
        omega
      · exact bfBalanced_cons_inv x xs hB h1

/-- Auxiliary balanced case: a coalesced-run instruction. -/
theorem cgLoop_bal_run_aux (N : Nat) (c : Char) (f : Nat → List Nat)
    (hstep : ∀ (rest : List Char) (code stk : List Nat),
      cgStep c rest code stk =
        some (rest.drop (countRun c rest), code ++ f (countRun c rest), stk))
    (hcmem : c ∈ (['+', '-', '<', '>'] : List Char))
    (hc1 : c ≠ '[') (hc2 : c ≠ ']')
    (ih : ∀ (B : List Char), B.length ≤ N → BfBalanced B →
      ∀ (R : List Char) (code stk : List Nat), runBoundary B R →
        ∃ ext, cgLoop (B ++ R) code stk = cgLoop R (code ++ ext) stk)
    (B' R : List Char) (code stk : List Nat)
    (hlen : B'.length ≤ N) (hB' : BfBalanced B')
    (hb : runBoundary (c :: B') R) :
    ∃ ext, cgLoop ((c :: B') ++ R) code stk = cgLoop R (code ++ ext) stk := by
  rw [List.cons_append, cgLoop_cons_some _ _ _ _ _ _ _ (hstep (B' ++ R) code stk)]
  by_cases hfull : countRun c B' = B'.length
  · have hR : R.head? ≠ some c := hb c (countRun_full_getLast c B' hfull) hcmem
    have hcnt : countRun c (B' ++ R) = B'.length := by
      rw [countRun_append_full c B' R hfull, countRun_eq_zero_of_head c R hR]
      omega
    rw [hcnt, drop_append_le B' R B'.length le_rfl, List.drop_length, List.nil_append]
    exact ⟨f B'.length, rfl⟩
  · have hlt := lt_of_le_of_ne (countRun_le_length c B') hfull
    have hcnt := countRun_append_lt c B' R hlt
    rw [hcnt, drop_append_le B' R (countRun c B') (le_of_lt hlt)]
    obtain ⟨ext', hext⟩ := ih (B'.drop (countRun c B'))
      (by simp only [List.length_drop]; omega)
      (bfBalanced_drop_run c hc1 hc2 (countRun c B') B' le_rfl hB')
      R (code ++ f (countRun c B')) stk
      (runBoundary_drop B' R _ (runBoundary_tail c B' R hb))
    exact ⟨f (countRun c B') ++ ext', by rw [hext, List.append_assoc]⟩

/-- Auxiliary balanced case: a single-token instruction appending a fixed
block. -/
theorem cgLoop_bal_one_aux (N : Nat) (c : Char) (X : List Nat)
    (hstep : ∀ (rest : List Char) (code stk : List Nat),
      cgStep c rest code stk = some (rest, code ++ X, stk))
    (ih : ∀ (B : List Char), B.length ≤ N → BfBalanced B →
      ∀ (R : List Char) (code stk : List Nat), runBoundary B R →
        ∃ ext, cgLoop (B ++ R) code stk = cgLoop R (code ++ ext) stk)
    (B' R : List Char) (code stk : List Nat)
    (hlen : B'.length ≤ N) (hB' : BfBalanced B')
    (hb : runBoundary (c :: B') R) :
    ∃ ext, cgLoop ((c :: B') ++ R) code stk = cgLoop R (code ++ ext) stk := by
  rw [List.cons_append, cgLoop_cons_some _ _ _ _ _ _ _ (hstep (B' ++ R) code stk)]
  obtain ⟨ext', hext⟩ := ih B' hlen hB' R (code ++ X) stk (runBoundary_tail c B' R hb)
  exact ⟨X ++ ext', by rw [hext, List.append_assoc]⟩

set_option maxHeartbeats 1000000 in
/-- Compiling a balanced segment `B` in front of any continuation `R` (with
no run crossing the boundary) succeeds, only appends bytes — every byte of
the incoming buffer, placeholders included, is untouched — and returns to
the incoming relocation stack. -/
theorem cgLoop_balanced :
    ∀ (N : Nat) (B : List Char), B.length ≤ N → BfBalanced B →
      ∀ (R : List Char) (code stk : List Nat), runBoundary B R →
        ∃ ext, cgLoop (B ++ R) code stk = cgLoop R (code ++ ext) stk := by
  intro N
  induction N with
  | zero =>
    intro B hBlen _ R code stk _
    have hBnil : B = [] := List.eq_nil_of_length_eq_zero (by omega)
    subst hBnil
    exact ⟨[], by simp⟩
  | succ N ih =>
    intro B hBlen hbal R code stk hb
    cases hbal with
    | nil => exact ⟨[], by simp⟩
    | tok c B' hc1 hc2 hB' =>
      simp only [List.length_cons] at hBlen
      by_cases h1 : c = '+'
      · subst h1
        exact cgLoop_bal_run_aux N '+' (fun k => [0x80, 0x03, (1 + k) % 256])
          cgStep_plus (by simp) hc1 hc2 ih B' R code stk (by omega) hB' hb
      by_cases h2 : c = '-'
      · subst h2
        exact cgLoop_bal_run_aux N '-' (fun k => [0x80, 0x2b, (1 + k) % 256])
          cgStep_minus (by simp) hc1 hc2 ih B' R code stk (by omega) hB' hb
      by_cases h3 : c = '>'
      · subst h3
        exact cgLoop_bal_run_aux N '>' (fun k => [0x48, 0x83, 0xc3, (1 + k) % 256])
          cgStep_right (by simp) hc1 hc2 ih B' R code stk (by omega) hB' hb
      by_cases h4 : c = '<'
      · subst h4
        exact cgLoop_bal_run_aux N '<' (fun k => [0x48, 0x83, 0xeb, (1 + k) % 256])
          cgStep_left (by simp) hc1 hc2 ih B' R code stk (by omega) hB' hb
      by_cases h5 : c = ','
      · subst h5
        exact cgLoop_bal_one_aux N ',' readBlock cgStep_comma ih B' R code stk
          (by omega) hB' hb
      by_cases h6 : c = '.'
      · subst h6
        exact cgLoop_bal_one_aux N '.' writeBlock cgStep_dot ih B' R code stk
          (by omega) hB' hb
      · rw [List.cons_append, cgLoop_cons_some _ _ _ _ _ _ _
          (cgStep_default c (B' ++ R) code stk h1 h2 h3 h4 h5 h6 hc1 hc2)]
        exact ih B' (by omega) hB' R code stk (runBoundary_tail c B' R hb)
    | wrap B0 C0 hB0 hC0 =>
      simp only [List.cons_append, List.length_cons, List.length_append] at hBlen
      have hshape : ('[' :: B0 ++ ']' :: C0) ++ R = '[' :: (B0 ++ (']' :: (C0 ++ R))) := by
        simp [List.append_assoc]
      rw [hshape,
        cgLoop_cons_some _ _ _ _ _ _ _ (cgStep_open (B0 ++ (']' :: (C0 ++ R))) code stk)]
      have hbB0 : runBoundary B0 (']' :: (C0 ++ R)) := by
        intro c hc hmem
        intro hhead
        simp only [List.head?] at hhead
        cases hhead
        simp at hmem
      obtain ⟨ext1, hext1⟩ := ih B0 (by omega) hB0 (']' :: (C0 ++ R))
        (code ++ openBlock) ((code.length + 9) :: stk) hbB0
      rw [hext1,
        cgLoop_cons_some _ _ _ _ _ _ _
          (cgStep_close (C0 ++ R) ((code ++ openBlock) ++ ext1) stk (code.length + 9))]
      set patched := (if 0 < countRun ']' (C0 ++ R)
        then cgClosePatch ((code ++ openBlock) ++ ext1) (code.length + 9) ++
          [0xeb, (countRun ']' (C0 ++ R) * 11 - 2) % 256]
        else cgClosePatch ((code ++ openBlock) ++ ext1) (code.length + 9)) with hpatched
      have hXlen : ((code ++ openBlock) ++ ext1).length = code.length + 9 + ext1.length := by
        simp [openBlock]
        omega
      have hp4 : 4 ≤ code.length + 9 := by omega
      have hple : code.length + 9 ≤ ((code ++ openBlock) ++ ext1).length := by omega
      have hpatchlen : (cgClosePatch ((code ++ openBlock) ++ ext1) (code.length + 9)).length =
          ((code ++ openBlock) ++ ext1).length + 9 :=
        cgClosePatch_length _ _ hp4 hple
      have hXget : ∀ i, i < code.length →
          ((code ++ openBlock) ++ ext1).get? i = code.get? i := by
        intro i hi
        rw [List.get?_append (by simp [openBlock]; omega), List.get?_append (by omega)]
      have hpget : ∀ i, i < code.length → patched.get? i = code.get? i := by
        intro i hi
        rw [hpatched]
        have hlow : (cgClosePatch ((code ++ openBlock) ++ ext1) (code.length + 9)).get? i =
            code.get? i := by
          rw [cgClosePatch_get?_low _ _ i hp4 hple (by omega)]
          exact hXget i hi
        split
        · rw [List.get?_append (by omega)]
          exact hlow
        · exact hlow
      have hplen : code.length ≤ patched.length := by
        rw [hpatched]
        split
        · rw [List.length_append, hpatchlen, hXlen]
          omega
        · rw [hpatchlen, hXlen]
          omega
      obtain ⟨ext3, hext3⟩ := exists_append_of_get? code patched hplen hpget
      have hbC0 : runBoundary C0 R := by
        intro c hc hmem
        have hC0ne : C0 ≠ [] := by
          intro h
          rw [h] at hc
          simp at hc
        have hlast : ('[' :: B0 ++ ']' :: C0).getLast? = some c := by
          rw [List.cons_append, getLast?_cons_of_ne '[' (B0 ++ ']' :: C0) (by simp),
            getLast?_append_right B0 (']' :: C0) (by simp),
            getLast?_cons_of_ne ']' C0 hC0ne]
          exact hc
        exact hb c hlast hmem
      obtain ⟨ext2, hext2⟩ := ih C0 (by omega) hC0 R patched stk hbC0
      rw [hext2, hext3]
      exact ⟨ext3 ++ ext2, by rw [List.append_assoc]⟩

/-! ## Displacement arithmetic and buffer slices -/

theorem int_emod_eq_mod (x y : Int) : x.emod y = x % y := rfl

theorem leVal_le32 (x : Nat) : leVal (le32 x) = x % 4294967296 := by
  simp only [le32, leVal]
  omega

theorem decode32_le32_of_lt (x : Nat) (h : x < 2147483648) :
    decode32 (le32 x) = (x : Int) := by
  unfold decode32 sext32
  rw [leVal_le32, Nat.mod_eq_of_lt (by omega), if_pos (by omega)]

theorem decode32_le32_neg (d : Nat) (h0 : 0 < d) (h1 : d ≤ 2147483648) :
    decode32 (le32 (4294967296 - d)) = -(d : Int) := by
  unfold decode32 sext32
  rw [leVal_le32, Nat.mod_eq_of_lt (by omega), if_neg (by omega)]
  push_cast [Nat.cast_sub (by omega : d ≤ 4294967296)]
  ring

theorem slice_eq_of_get? (L Y : List Nat) (pos : Nat) (hlen : pos + Y.length ≤ L.length)
    (h : ∀ t, t < Y.length → L.get? (pos + t) = Y.get? t) :
    (L.drop pos).take Y.length = Y := by
  apply List.ext_get?
  intro n
  by_cases hn : n < Y.length
  · rw [List.get?_take hn, List.get?_drop, h n hn]
  · rw [List.get?_eq_none.mpr (by simp; omega), List.get?_eq_none.mpr (by omega)]

theorem slice_get? (M Y : List Nat) (pos : Nat) (hs : (M.drop pos).take Y.length = Y)
    (t : Nat) (ht : t < Y.length) : M.get? (pos + t) = Y.get? t := by
  conv_rhs => rw [← hs]
  rw [List.get?_take ht, List.get?_drop]

theorem slice_append_left (M E : List Nat) (pos k : Nat) (h : pos + k ≤ M.length) :
    ((M ++ E).drop pos).take k = (M.drop pos).take k := by
  rw [drop_append_le M E pos (by omega), List.take_append_eq_append_take,
    show k - (M.drop pos).length = 0 from by simp only [List.length_drop]; omega]
  simp

theorem slice_here (M Y E : List Nat) : ((M ++ (Y ++ E)).drop M.length).take Y.length = Y := by
  rw [List.drop_left, List.take_left]

theorem slice_end (M Y : List Nat) : ((M ++ Y).drop M.length).take Y.length = Y := by
  rw [List.drop_left, List.take_length]

theorem slice_of_get?_eq (L M Y : List Nat) (pos : Nat)
    (hs : (M.drop pos).take Y.length = Y)
    (hlen : pos + Y.length ≤ L.length)
    (hMlen : pos + Y.length ≤ M.length)
    (hpt : ∀ i, pos ≤ i → i < pos + Y.length → L.get? i = M.get? i) :
    (L.drop pos).take Y.length = Y :=
  slice_eq_of_get? L Y pos hlen (fun t ht => by
    rw [hpt (pos + t) (by omega) (by omega), slice_get? M Y pos hs t ht])

theorem slice_gen (M Y E : List Nat) (pos k : Nat) (hpos : pos = M.length)
    (hk : k = Y.length) : ((M ++ (Y ++ E)).drop pos).take k = Y := by
  subst hpos
  subst hk
  exact slice_here M Y E

theorem slice_gen_end (M Y : List Nat) (pos k : Nat) (hpos : pos = M.length)
    (hk : k = Y.length) : ((M ++ Y).drop pos).take k = Y := by
  subst hpos
  subst hk
  exact slice_end M Y

theorem slice_transfer (L M Y : List Nat) (pos k : Nat)
    (hk : Y.length = k)
    (hs : (M.drop pos).take k = Y)
    (hlen : pos + k ≤ L.length)
    (hMlen : pos + k ≤ M.length)
    (hpt : ∀ i, pos ≤ i → i < pos + k → L.get? i = M.get? i) :
    (L.drop pos).take k = Y := by
  subst hk
  exact slice_of_get?_eq L M Y pos hs hlen hMlen hpt

/-! ## Claim C5 -/

set_option maxHeartbeats 4000000 in
/-- C5: single-pass backpatching.  For any program `A [ B ] C` whose
bracket pair `[`/`]` encloses the balanced body `B`, a successful
compilation reaches the `]` with its matching `[`'s placeholder position on
top of the relocation stack, and in the final buffer the two
comparison-and-branch blocks (at `b := cA.length` for the `[`, at
`q := cB.length` for the `]`) carry exactly 4 patched little-endian
displacement bytes each: the `[`'s `je` jumps to `q + 9`, the first byte
past the `]`'s block, and the `]`'s `jne` jumps back to `b + 9`, the first
instruction of the loop body — with no second linking pass. -/
theorem c5_backpatch (A B C : List Char) (base : Nat) (L : List Nat)
    (hB : BfBalanced B)
    (hc : bfJITCompile (A ++ '[' :: (B ++ ']' :: C)) base = some L)
    (hL : L.length < 2147483648) :
    ∃ cA sA cB,
      cgLoop A (jitPrologue base) [] = some (cA, sA) ∧
      cgLoop (B ++ ']' :: C) (cA ++ openBlock) ((cA.length + 9) :: sA) =
        cgLoop (']' :: C) cB ((cA.length + 9) :: sA) ∧
      (∃ t, cB = (cA ++ openBlock) ++ t) ∧
      (L.drop cA.length).take 5 = [0x80, 0x3b, 0x00, 0x0f, 0x84] ∧
      (L.drop cB.length).take 5 = [0x80, 0x3b, 0x00, 0x0f, 0x85] ∧
      (L.drop (cA.length + 5)).take 4 = le32 (cB.length - cA.length) ∧
      (L.drop (cB.length + 5)).take 4 = le32 (4294967296 - (cB.length - cA.length)) ∧
      ((cA.length + 9 : Nat) : Int) + decode32 ((L.drop (cA.length + 5)).take 4) =
        ((cB.length + 9 : Nat) : Int) ∧
      ((cB.length + 9 : Nat) : Int) + decode32 ((L.drop (cB.length + 5)).take 4) =
        ((cA.length + 9 : Nat) : Int) := by
  unfold bfJITCompile at hc
  cases hrun : cgLoop (A ++ '[' :: (B ++ ']' :: C)) (jitPrologue base) [] with
  | none =>
    rw [hrun] at hc
    cases hc
  | some out =>
    obtain ⟨fin, sF⟩ := out
    rw [hrun] at hc
    have hLfin : L = fin ++ jitEpilogue := (Option.some.inj hc).symm
    subst hLfin
    have hsplitb : splitBoundary A ('[' :: (B ++ ']' :: C)) := by
      intro c hc' hmem hhead
      simp only [List.head?] at hhead
      cases hhead
      simp at hmem
    have hsplit := cgLoop_append_split A.length A le_rfl ('[' :: (B ++ ']' :: C))
      (jitPrologue base) [] hsplitb
    rw [hrun] at hsplit
    cases hA : cgLoop A (jitPrologue base) [] with
    | none =>
      rw [hA] at hsplit
      cases hsplit
    | some oA =>
      obtain ⟨cA, sA⟩ := oA
      rw [hA] at hsplit
      have hsplit' : cgLoop ('[' :: (B ++ ']' :: C)) cA sA = some (fin, sF) := hsplit.symm
      rw [cgLoop_cons_some '[' (B ++ ']' :: C) _ cA sA _ _
        (cgStep_open (B ++ ']' :: C) cA sA)] at hsplit'
      have hbB : runBoundary B (']' :: C) := by
        intro c hc' hmem hhead
        simp only [List.head?] at hhead
        cases hhead
        simp at hmem
      obtain ⟨ext1, hext1⟩ := cgLoop_balanced B.length B le_rfl hB (']' :: C)
        (cA ++ openBlock) ((cA.length + 9) :: sA) hbB
      rw [hext1] at hsplit'
      rw [cgLoop_cons_some ']' C _ _ _ _ _
        (cgStep_close C ((cA ++ openBlock) ++ ext1) sA (cA.length + 9))] at hsplit'
      have hifE : (if 0 < countRun ']' C
          then cgClosePatch ((cA ++ openBlock) ++ ext1) (cA.length + 9) ++
            [0xeb, (countRun ']' C * 11 - 2) % 256]
          else cgClosePatch ((cA ++ openBlock) ++ ext1) (cA.length + 9)) =
          cgClosePatch ((cA ++ openBlock) ++ ext1) (cA.length + 9) ++
            (if 0 < countRun ']' C then [0xeb, (countRun ']' C * 11 - 2) % 256] else []) := by
        split
        · rfl
        · exact (List.append_nil _).symm
      rw [hifE] at hsplit'
      -- abbreviations
      have hq : ((cA ++ openBlock) ++ ext1).length = cA.length + 9 + ext1.length := by
        simp [openBlock]
        omega
      have hp4 : 4 ≤ cA.length + 9 := by omega
      have hple : cA.length + 9 ≤ ((cA ++ openBlock) ++ ext1).length := by omega
      have hpatchlen : (cgClosePatch ((cA ++ openBlock) ++ ext1) (cA.length + 9)).length =
          ((cA ++ openBlock) ++ ext1).length + 9 := cgClosePatch_length _ _ hp4 hple
      -- invariants of the A-run and the C-run
      obtain ⟨hmonoA, hstkA, _⟩ := cgLoop_facts A.length A (jitPrologue base) [] cA sA
        le_rfl (by intro e he; cases he) hA
      have hwfC : ∀ e ∈ sA, 4 ≤ e ∧
          e ≤ (cgClosePatch ((cA ++ openBlock) ++ ext1) (cA.length + 9) ++
            (if 0 < countRun ']' C then [0xeb, (countRun ']' C * 11 - 2) % 256] else [])).length := by
        intro e he
        refine ⟨(hstkA e he).1, ?_⟩
        have h1 := (hstkA e he).2
        simp only [List.length_append, hpatchlen]
        omega
      obtain ⟨hmonoC, _, hpresC⟩ := cgLoop_facts C.length C _ sA fin sF le_rfl hwfC hsplit'
      -- bounds
      have hfinL : fin.length ≤ (fin ++ jitEpilogue).length := by simp
      have hqbound : ((cA ++ openBlock) ++ ext1).length + 9 ≤ fin.length := by
        rw [List.length_append, hpatchlen] at hmonoC
        omega
      have hq31 : ((cA ++ openBlock) ++ ext1).length + 9 < 2147483648 := by
        have h2 : (fin ++ jitEpilogue).length = fin.length + 3 := by simp [jitEpilogue]
        omega
      -- displacement values
      have hFval : ((((((cA ++ openBlock) ++ ext1).length + 9 : Nat) : Int) -
          ((cA.length + 9 : Nat) : Int)).emod 4294967296).toNat =
          ((cA ++ openBlock) ++ ext1).length - cA.length := by
        rw [int_emod_eq_mod]
        omega
      have hBval : ((((cA.length + 9 : Nat) : Int) -
          ((((cA ++ openBlock) ++ ext1).length + 9 : Nat) : Int)).emod 4294967296).toNat =
          4294967296 - (((cA ++ openBlock) ++ ext1).length - cA.length) := by
        rw [int_emod_eq_mod]
        omega
      -- explicit form of the patched buffer
      have htk : ((cA ++ openBlock) ++ ext1).take (cA.length + 9 - 4) =
          cA ++ [0x80, 0x3b, 0x00, 0x0f, 0x84] := by
        rw [List.take_append_of_le_length (by simp [openBlock]),
          List.take_append_eq_append_take, List.take_of_length_le (by omega),
          show cA.length + 9 - 4 - cA.length = 5 from by omega]
        rfl
      have hdp : ((cA ++ openBlock) ++ ext1).drop (cA.length + 9) = ext1 :=
        List.drop_left' (by simp [openBlock])
      have hform : cgClosePatch ((cA ++ openBlock) ++ ext1) (cA.length + 9) =
          cA ++ ([0x80, 0x3b, 0x00, 0x0f, 0x84] ++
            (le32 (((cA ++ openBlock) ++ ext1).length - cA.length) ++
              (ext1 ++ ([0x80, 0x3b, 0x00, 0x0f, 0x85] ++
                le32 (4294967296 - (((cA ++ openBlock) ++ ext1).length - cA.length)))))) := by
        rw [cgClosePatch_eq _ _ hp4 hple, htk, hdp, hFval, hBval]
        simp [List.append_assoc]
      -- bytes of the patched region survive the C-run and precede the epilogue
      have htrans : ∀ i, cA.length ≤ i → i < ((cA ++ openBlock) ++ ext1).length + 9 →
          (fin ++ jitEpilogue).get? i =
          (cgClosePatch ((cA ++ openBlock) ++ ext1) (cA.length + 9) ++
            (if 0 < countRun ']' C then [0xeb, (countRun ']' C * 11 - 2) % 256] else [])).get? i := by
        intro i hlo hhi
        rw [List.get?_append (show i < fin.length by omega)]
        exact hpresC i (by rw [List.length_append, hpatchlen]; omega)
          (fun e he => Or.inl (le_trans (hstkA e he).2 hlo))
      -- regrouped forms of the patched buffer
      have hform2 : cgClosePatch ((cA ++ openBlock) ++ ext1) (cA.length + 9) =
          (cA ++ [0x80, 0x3b, 0x00, 0x0f, 0x84]) ++
            (le32 (((cA ++ openBlock) ++ ext1).length - cA.length) ++
              (ext1 ++ ([0x80, 0x3b, 0x00, 0x0f, 0x85] ++
                le32 (4294967296 - (((cA ++ openBlock) ++ ext1).length - cA.length))))) := by
        rw [hform]
        simp only [List.append_assoc]
      have hform3 : cgClosePatch ((cA ++ openBlock) ++ ext1) (cA.length + 9) =
          (((cA ++ [0x80, 0x3b, 0x00, 0x0f, 0x84]) ++
            le32 (((cA ++ openBlock) ++ ext1).length - cA.length)) ++ ext1) ++
            ([0x80, 0x3b, 0x00, 0x0f, 0x85] ++
              le32 (4294967296 - (((cA ++ openBlock) ++ ext1).length - cA.length))) := by
        rw [hform]
        simp only [List.append_assoc]
      have hform4 : cgClosePatch ((cA ++ openBlock) ++ ext1) (cA.length + 9) =
          ((((cA ++ [0x80, 0x3b, 0x00, 0x0f, 0x84]) ++
            le32 (((cA ++ openBlock) ++ ext1).length - cA.length)) ++ ext1) ++
            [0x80, 0x3b, 0x00, 0x0f, 0x85]) ++
            le32 (4294967296 - (((cA ++ openBlock) ++ ext1).length - cA.length)) := by
        rw [hform]
        simp only [List.append_assoc]
      -- the four slices of the patched buffer plus elision tail
      have hs1 : ((cgClosePatch ((cA ++ openBlock) ++ ext1) (cA.length + 9) ++
          (if 0 < countRun ']' C then [0xeb, (countRun ']' C * 11 - 2) % 256] else [])).drop
            cA.length).take 5 = [0x80, 0x3b, 0x00, 0x0f, 0x84] := by
        rw [slice_append_left (cgClosePatch ((cA ++ openBlock) ++ ext1) (cA.length + 9))
          (if 0 < countRun ']' C then [0xeb, (countRun ']' C * 11 - 2) % 256] else [])
          cA.length 5 (by rw [hpatchlen]; omega), hform]
        exact slice_gen cA [0x80, 0x3b, 0x00, 0x0f, 0x84] _ cA.length 5 rfl rfl
      have hs2 : ((cgClosePatch ((cA ++ openBlock) ++ ext1) (cA.length + 9) ++
          (if 0 < countRun ']' C then [0xeb, (countRun ']' C * 11 - 2) % 256] else [])).drop
            (cA.length + 5)).take 4 =
          le32 (((cA ++ openBlock) ++ ext1).length - cA.length) := by
        rw [slice_append_left (cgClosePatch ((cA ++ openBlock) ++ ext1) (cA.length + 9))
          (if 0 < countRun ']' C then [0xeb, (countRun ']' C * 11 - 2) % 256] else [])
          (cA.length + 5) 4 (by rw [hpatchlen]; omega), hform2]
        exact slice_gen (cA ++ [0x80, 0x3b, 0x00, 0x0f, 0x84])
          (le32 (((cA ++ openBlock) ++ ext1).length - cA.length)) _
          (cA.length + 5) 4 (by simp) (le32_length _).symm
      have hs3 : ((cgClosePatch ((cA ++ openBlock) ++ ext1) (cA.length + 9) ++
          (if 0 < countRun ']' C then [0xeb, (countRun ']' C * 11 - 2) % 256] else [])).drop
            ((cA ++ openBlock) ++ ext1).length).take 5 = [0x80, 0x3b, 0x00, 0x0f, 0x85] := by
        rw [slice_append_left (cgClosePatch ((cA ++ openBlock) ++ ext1) (cA.length + 9))
          (if 0 < countRun ']' C then [0xeb, (countRun ']' C * 11 - 2) % 256] else [])
          ((cA ++ openBlock) ++ ext1).length 5 (by rw [hpatchlen]; omega), hform3]
        refine slice_gen _ [0x80, 0x3b, 0x00, 0x0f, 0x85] _
          ((cA ++ openBlock) ++ ext1).length 5 ?_ rfl
        rw [hq]
        simp only [List.length_append, le32_length, List.length_cons, List.length_nil]
      have hs4 : ((cgClosePatch ((cA ++ openBlock) ++ ext1) (cA.length + 9) ++
          (if 0 < countRun ']' C then [0xeb, (countRun ']' C * 11 - 2) % 256] else [])).drop
            (((cA ++ openBlock) ++ ext1).length + 5)).take 4 =
          le32 (4294967296 - (((cA ++ openBlock) ++ ext1).length - cA.length)) := by
        rw [slice_append_left (cgClosePatch ((cA ++ openBlock) ++ ext1) (cA.length + 9))
          (if 0 < countRun ']' C then [0xeb, (countRun ']' C * 11 - 2) % 256] else [])
          (((cA ++ openBlock) ++ ext1).length + 5) 4 (by rw [hpatchlen]), hform4]
        refine slice_gen_end _
          (le32 (4294967296 - (((cA ++ openBlock) ++ ext1).length - cA.length)))
          (((cA ++ openBlock) ++ ext1).length + 5) 4 ?_ (le32_length _).symm
        rw [hq]
        simp only [List.length_append, le32_length, List.length_cons, List.length_nil]
      -- the same four slices of the final buffer
      have hL1 : ((fin ++ jitEpilogue).drop cA.length).take 5 =
          [0x80, 0x3b, 0x00, 0x0f, 0x84] :=
        slice_transfer (fin ++ jitEpilogue) _ _ cA.length 5 rfl hs1 (by omega)
          (by simp only [List.length_append, hpatchlen]; omega)
          (fun i hlo hhi => htrans i hlo (by omega))
      have hL2 : ((fin ++ jitEpilogue).drop ((cA ++ openBlock) ++ ext1).length).take 5 =
          [0x80, 0x3b, 0x00, 0x0f, 0x85] :=
        slice_transfer (fin ++ jitEpilogue) _ _ ((cA ++ openBlock) ++ ext1).length 5 rfl hs3
          (by omega)
          (by simp only [List.length_append, hpatchlen]; omega)
          (fun i hlo hhi => htrans i (by omega) (by omega))
      have hL3 : ((fin ++ jitEpilogue).drop (cA.length + 5)).take 4 =
          le32 (((cA ++ openBlock) ++ ext1).length - cA.length) :=
        slice_transfer (fin ++ jitEpilogue) _ _ (cA.length + 5) 4 (le32_length _) hs2
          (by omega)
          (by simp only [List.length_append, hpatchlen]; omega)
          (fun i hlo hhi => htrans i (by omega) (by omega))
      have hL4 : ((fin ++ jitEpilogue).drop (((cA ++ openBlock) ++ ext1).length + 5)).take 4 =
          le32 (4294967296 - (((cA ++ openBlock) ++ ext1).length - cA.length)) :=
        slice_transfer (fin ++ jitEpilogue) _ _ (((cA ++ openBlock) ++ ext1).length + 5) 4
          (le32_length _) hs4
          (by omega)
          (by simp only [List.length_append, hpatchlen]; omega)
          (fun i hlo hhi => htrans i (by omega) (by omega))
      refine ⟨cA, sA, (cA ++ openBlock) ++ ext1, rfl, hext1, ⟨ext1, rfl⟩,
        hL1, hL2, hL3, hL4, ?_, ?_⟩
      · rw [hL3, decode32_le32_of_lt _ (by omega)]
        omega
      · rw [hL4, decode32_le32_neg _ (by omega) (by omega)]
        omega

/-- Witness for `c5_backpatch`: the program `[+]` compiles to a concrete
34-byte buffer in which the two displacement fields link the bracket pair. -/
theorem c5_backpatch_witness :
    ∃ cA sA cB,
      cgLoop [] (jitPrologue 0) [] = some (cA, sA) ∧
      cgLoop (['+'] ++ ']' :: []) (cA ++ openBlock) ((cA.length + 9) :: sA) =
        cgLoop (']' :: []) cB ((cA.length + 9) :: sA) ∧
      (∃ t, cB = (cA ++ openBlock) ++ t) ∧
      ([72, 187, 0, 0, 0, 0, 0, 0, 0, 0, 128, 59, 0, 15, 132, 12, 0, 0, 0, 128, 3, 1,
        128, 59, 0, 15, 133, 244, 255, 255, 255, 88, 255, 224].drop cA.length).take 5 =
        [0x80, 0x3b, 0x00, 0x0f, 0x84] ∧
      ([72, 187, 0, 0, 0, 0, 0, 0, 0, 0, 128, 59, 0, 15, 132, 12, 0, 0, 0, 128, 3, 1,
        128, 59, 0, 15, 133, 244, 255, 255, 255, 88, 255, 224].drop cB.length).take 5 =
        [0x80, 0x3b, 0x00, 0x0f, 0x85] ∧
      ([72, 187, 0, 0, 0, 0, 0, 0, 0, 0, 128, 59, 0, 15, 132, 12, 0, 0, 0, 128, 3, 1,
        128, 59, 0, 15, 133, 244, 255, 255, 255, 88, 255, 224].drop (cA.length + 5)).take 4 =
        le32 (cB.length - cA.length) ∧
      ([72, 187, 0, 0, 0, 0, 0, 0, 0, 0, 128, 59, 0, 15, 132, 12, 0, 0, 0, 128, 3, 1,
        128, 59, 0, 15, 133, 244, 255, 255, 255, 88, 255, 224].drop (cB.length + 5)).take 4 =
        le32 (4294967296 - (cB.length - cA.length)) ∧
      ((cA.length + 9 : Nat) : Int) +
        decode32 (([72, 187, 0, 0, 0, 0, 0, 0, 0, 0, 128, 59, 0, 15, 132, 12, 0, 0, 0, 128, 3, 1,
          128, 59, 0, 15, 133, 244, 255, 255, 255, 88, 255, 224].drop (cA.length + 5)).take 4) =
        ((cB.length + 9 : Nat) : Int) ∧
      ((cB.length + 9 : Nat) : Int) +
        decode32 (([72, 187, 0, 0, 0, 0, 0, 0, 0, 0, 128, 59, 0, 15, 132, 12, 0, 0, 0, 128, 3, 1,
          128, 59, 0, 15, 133, 244, 255, 255, 255, 88, 255, 224].drop (cB.length + 5)).take 4) =
        ((cA.length + 9 : Nat) : Int) :=
  c5_backpatch [] ['+'] [] 0
    [72, 187, 0, 0, 0, 0, 0, 0, 0, 0, 128, 59, 0, 15, 132, 12, 0, 0, 0, 128, 3, 1,
      128, 59, 0, 15, 133, 244, 255, 255, 255, 88, 255, 224]
    (BfBalanced.tok '+' [] (by decide) (by decide) BfBalanced.nil) rfl (by decide)
